import Mathlib

/-!
# Verification of the transfer-market crawl-and-extract engine

Shallow embedding of `src/main.py`: the retrying fetcher (`fetch_url`), the
date parsing in `run_script`, the page-number URL helpers (`extract_page_num`,
`build_next_from_current`), the pagination-strategy chain, the per-index
pagination walk, the row extraction, and the multi-index crawl loop.

Machine-level conventions: URLs and cell values are Lean `String`s, processed
as `List Char`; Python regular-expression and `urllib` behaviour is modelled
by explicit recursive functions on character lists.
-/

namespace TransferScraper

/-- A character is an ASCII decimal digit (models the regex class matching
digits in the page-number token; modelled as 0-9). -/
def isDig (c : Char) : Bool := 48 ≤ c.toNat && c.toNat ≤ 57

/-- The characters `page/` following a slash in the page-number token
regex `/(?:page|seite)/(\d+)` of `extract_page_num`. -/
def pageWord : List Char := ['p', 'a', 'g', 'e', '/']

/-- The characters `seite/` of the second alternative of the page-number
token regex. -/
def seiteWord : List Char := ['s', 'e', 'i', 't', 'e', '/']

/-- Split off the maximal leading run of digit characters (models the greedy
`\d+` capture group). -/
def takeDigs : List Char → List Char × List Char
  | [] => ([], [])
  | c :: t =>
    if isDig c then
      let p := takeDigs t
      (c :: p.1, p.2)
    else ([], c :: t)

/-- Try to match `page/<digits>` or `seite/<digits>` at the head of `l`
(the part of the token after the leading slash).  Returns the captured digit
run and the remaining characters. -/
def tokAfterSlash (l : List Char) : Option (List Char × List Char) :=
  if l.take 5 = pageWord then
    if (takeDigs (l.drop 5)).1 = [] then none else some (takeDigs (l.drop 5))
  else if l.take 6 = seiteWord then
    if (takeDigs (l.drop 6)).1 = [] then none else some (takeDigs (l.drop 6))
  else none

/-- Try to match the token `/(?:page|seite)/(\d+)` at the head of `l`. -/
def pageTokenAt : List Char → Option (List Char × List Char)
  | c :: t => if c = '/' then tokAfterSlash t else none
  | [] => none

/-- Find the first (leftmost) occurrence of the page-number token, as
`re.search` does: returns the characters before the match, the captured digit
run, and the characters after the match. -/
def findTok : List Char → Option (List Char × List Char × List Char)
  | [] => none
  | c :: t =>
    match pageTokenAt (c :: t) with
    | some (ds, rest) => some ([], ds, rest)
    | none =>
      match findTok t with
      | some (pre, ds, rest) => some (c :: pre, ds, rest)
      | none => none

/-- Decimal value of a digit run (models Python `int` applied to the captured
group, accepting leading zeros). -/
def natOfDigs (ds : List Char) : Nat := ds.foldl (fun a c => 10 * a + (c.toNat - 48)) 0

/-- `extract_page_num` on character lists: value of the first page-number
token, defaulting to page 1 when the token is absent. -/
def extractPageNumL (l : List Char) : Nat :=
  match findTok l with
  | some (_, ds, _) => natOfDigs ds
  | none => 1

/-- `extract_page_num(url)` from `src/main.py`: `re.search` for
`/(?:page|seite)/(\d+)`, returning the captured number, or 1 if absent. -/
def extract_page_num (s : String) : Nat := extractPageNumL s.toList

/-- Decimal digit characters of `n`, most significant first, with explicit
fuel (models Python `str` on a nonnegative integer; auxiliary). -/
def natDigsAux : Nat → Nat → List Char
  | 0, _ => []
  | fuel + 1, n => if n = 0 then [] else natDigsAux fuel (n / 10) ++ [Char.ofNat (48 + n % 10)]

/-- Decimal representation of `n` as characters (Python `str(n)`). -/
def natDigs (n : Nat) : List Char := if n = 0 then ['0'] else natDigsAux (n + 1) n

/-- The replacement text `/page/<n>` used by `build_next_from_current`. -/
def repl (n : Nat) : List Char := '/' :: pageWord ++ natDigs n

/-- `re.sub` of the page-number token by `/page/<n>`, replacing every
non-overlapping occurrence from the left, with fuel (auxiliary). -/
def subAllGo (n : Nat) : Nat → List Char → List Char
  | 0, l => l
  | fuel + 1, l =>
    match findTok l with
    | some (pre, _, rest) => pre ++ repl n ++ subAllGo n fuel rest
    | none => l

/-- `re.sub(r'/(?:page|seite)/\d+', f'/page/{n}', u)` on character lists. -/
def subAll (n : Nat) (l : List Char) : List Char := subAllGo n l.length l

/-- ASCII letter test (models `str.isascii() and str.isalpha()` as used by the
scheme check of `urllib.parse.urlsplit`). -/
def isAlphaAscii (c : Char) : Bool :=
  (65 ≤ c.toNat && c.toNat ≤ 90) || (97 ≤ c.toNat && c.toNat ≤ 122)

/-- Characters allowed in a URL scheme (`urllib.parse.scheme_chars`:
ASCII letters, digits, and `+`, `-`, `.`). -/
def isSchemeChar (c : Char) : Bool :=
  isAlphaAscii c || isDig c || c = '+' || c = '-' || c = '.'

/-- ASCII lower-casing of one character (models `str.lower()` on the
already-validated ASCII scheme text). -/
def lowerChar (c : Char) : Char :=
  if 65 ≤ c.toNat && c.toNat ≤ 90 then Char.ofNat (c.toNat + 32) else c

/-- Index of the first `:` in `l`, if any (Python `url.find(':')`). -/
def findColon : List Char → Option Nat
  | [] => none
  | c :: t => if c = ':' then some 0 else (findColon t).map (· + 1)

/-- The five components of `urllib.parse.urlsplit`. -/
structure SplitURL where
  scheme : List Char
  netloc : List Char
  path : List Char
  query : List Char
  fragment : List Char
deriving DecidableEq, Repr

/-- Scheme part of `urlsplit`: accepted only when a `:` occurs at a positive
index and everything before it is a valid scheme beginning with an ASCII
letter; the scheme is lower-cased.  Returns the (possibly empty) scheme and
the remaining characters. -/
def splitScheme (u : List Char) : List Char × List Char :=
  match findColon u with
  | some i =>
    if 0 < i ∧ (u.take i).all isSchemeChar ∧ (u.take 1).all isAlphaAscii then
      ((u.take i).map lowerChar, u.drop (i + 1))
    else ([], u)
  | none => ([], u)

/-- A character ends the netloc of `urlsplit` (`/`, `?` or `#`). -/
def isNetlocEnd (c : Char) : Bool := c = '/' ∨ c = '?' ∨ c = '#'

/-- Netloc part of `urlsplit`: after a leading `//`, everything up to the
next `/`, `?` or `#`. -/
def splitNetloc (u : List Char) : List Char × List Char :=
  if u.take 2 = ['/', '/'] then
    ((u.drop 2).takeWhile fun c => !isNetlocEnd c, (u.drop 2).dropWhile fun c => !isNetlocEnd c)
  else ([], u)

/-- Split at the first occurrence of `ch` (Python `str.split(ch, 1)`),
returning the part before and the part after; the second component is empty
when `ch` is absent. -/
def splitOn1 (ch : Char) : List Char → List Char × List Char
  | [] => ([], [])
  | c :: t =>
    if c = ch then ([], t)
    else
      let p := splitOn1 ch t
      (c :: p.1, p.2)

/-- Modelled from the library function `urllib.parse.urlsplit` used by
`build_next_from_current`: scheme, then `//netloc`, then the fragment split,
then the query split; whitespace removal and IPv6 bracket validation of the
stdlib are out of scope of this model. -/
def urlsplitL (u : List Char) : SplitURL :=
  let s := splitScheme u
  let nq := splitNetloc s.2
  let f := splitOn1 '#' nq.2
  let q := splitOn1 '?' f.1
  ⟨s.1, nq.1, q.1, q.2, f.2⟩

/-- The schemes of `urllib.parse.uses_netloc` (CPython 3.11). -/
def usesNetloc : List String :=
  ["", "ftp", "http", "gopher", "nntp", "telnet", "imap", "wais", "file",
   "mms", "https", "shttp", "snews", "prospero", "rtsp", "rtsps", "rtspu",
   "rsync", "svn", "svn+ssh", "sftp", "nfs", "git", "git+ssh", "ws", "wss"]

/-- Modelled from the library function `urllib.parse.urlunsplit`
(CPython 3.10+): reassembles the five components, restoring `//` when a
netloc is present or the scheme is one that uses a netloc. -/
def urlunsplitL (s : SplitURL) : List Char :=
  let url := s.path
  let url :=
    if s.netloc ≠ [] ∨
        (s.scheme ≠ [] ∧ String.mk s.scheme ∈ usesNetloc ∧ url.take 2 ≠ ['/', '/']) then
      let url := if url ≠ [] ∧ url.take 1 ≠ ['/'] then '/' :: url else url
      '/' :: '/' :: (s.netloc ++ url)
    else url
  let url := if s.scheme ≠ [] then s.scheme ++ ':' :: url else url
  let url := if s.query ≠ [] then url ++ '?' :: s.query else url
  if s.fragment ≠ [] then url ++ '#' :: s.fragment else url

/-- `path.rstrip('/')`: remove every trailing slash. -/
def rstripSlash (l : List Char) : List Char :=
  (l.reverse.dropWhile (· = '/')).reverse

/-- `build_next_from_current(url, next_num)` on character lists: if the
page-number token occurs, replace every occurrence by `/page/<n>`; otherwise
split the URL, append `/page/<n>` to the slash-stripped path, and reassemble. -/
def buildNextL (u : List Char) (n : Nat) : List Char :=
  match findTok u with
  | some _ => subAll n u
  | none =>
    let p := urlsplitL u
    urlunsplitL ⟨p.scheme, p.netloc, rstripSlash p.path ++ repl n, p.query, p.fragment⟩

/-- `build_next_from_current(url, next_num)` from `src/main.py`. -/
def build_next_from_current (u : String) (n : Nat) : String :=
  String.mk (buildNextL u.toList n)

/-- The fixed base against which candidate hrefs are resolved
(`urllib.parse.urljoin('https://www.transfermarkt.com', href)`). -/
def tmBase : String := "https://www.transfermarkt.com"

/-- Modelled from the library function `urllib.parse.urljoin` as applied
here to the fixed absolute base `https://www.transfermarkt.com` (whose path
is empty): an empty href yields the base; an href carrying its own scheme is
kept; a protocol-relative href adopts the base scheme; a root-relative href
is resolved against the base origin; any other href is attached below the
origin.  Dot-segment normalisation is out of scope of this model. -/
def urljoin (base rel : String) : String :=
  let r := rel.toList
  if r = [] then base
  else if (splitScheme r).1 ≠ [] then rel
  else if r.take 2 = ['/', '/'] then String.mk ('h' :: 't' :: 't' :: 'p' :: 's' :: ':' :: r)
  else if r.take 1 = ['/'] then base ++ rel
  else base ++ "/" ++ rel

/-- An `<a>` element inside a table cell: its `href` attribute (absent when
the attribute is missing) and its stripped text. -/
structure ATag where
  href : Option String
  text : String
deriving DecidableEq, Repr

/-- A `<td>` cell of a transfer row: its stripped text content
(`get_text(strip=True)`) and its first `<a>` descendant, if any
(`select_one("a")`). -/
structure Cell where
  text : String
  a : Option ATag
deriving DecidableEq, Repr

/-- `keep_indices = [0, 1, 5, 8, 12, 14]` from `run_script`. -/
def keep_indices : List Nat := [0, 1, 5, 8, 12, 14]

/-- Value of one retained cell: if the cell holds an `<a>` with a truthy
`href`, a `=HYPERLINK(url, text)` formula whose URL is the href prefixed by
the site origin; otherwise the cell's stripped text. -/
def renderCell (c : Cell) : String :=
  match c.a with
  | some a =>
    match a.href with
    | some h =>
      if h = "" then c.text
      else "=HYPERLINK(" ++ "\"" ++ ("https://www.transfermarkt.com" ++ h) ++ "\"" ++
        ", " ++ "\"" ++ a.text ++ "\"" ++ ")"
    | none => c.text
  | none => c.text

/-- The cell loop `for idx, col in enumerate(cols, start=1)` of `run_script`:
cells whose 1-based position is listed in `keep_indices` are rendered and
kept, in order. -/
def extractCells : Nat → List Cell → List String
  | _, [] => []
  | idx, c :: rest =>
    if idx ∈ keep_indices then renderCell c :: extractCells (idx + 1) rest
    else extractCells (idx + 1) rest

/-- Extraction of one row's retained cell values (the `data` list before the
date label is inserted). -/
def extractRow (cells : List Cell) : List String := extractCells 1 cells

/-- Row emission: a row is appended to the output only when `data` is
nonempty, with the date label inserted at the front. -/
def emitRow (dateText : String) (cells : List Cell) : Option (List String) :=
  match extractRow cells with
  | [] => none
  | data => some (dateText :: data)

/-- Parser output for one fetched page: the transfer rows (each a list of
`<td>` cells), the `rel="next"` element's href, the right-arrow pagination
link's href, and the hrefs of all `ul.tm-pagination a[href]` links. -/
structure Page where
  rows : List (List Cell)
  relNextHref : Option String
  rightHref : Option String
  paginationHrefs : List String
deriving DecidableEq, Repr

/-- `PAGE_SIZE_HINT = 25` from `run_script`. -/
def PAGE_SIZE_HINT : Nat := 25

/-- Strategy 1: the `rel="next"` link, taken when present with a truthy
href, resolved against the base. -/
def relNextCandidate (page : Page) : Option String :=
  match page.relNextHref with
  | some h => if h = "" then none else some (urljoin tmBase h)
  | none => none

/-- Strategy 2: the right-arrow pagination link, taken when present with a
truthy href, resolved against the base. -/
def rightCandidate (page : Page) : Option String :=
  match page.rightHref with
  | some h => if h = "" then none else some (urljoin tmBase h)
  | none => none

/-- The numeric pagination links: every `ul.tm-pagination a[href]` whose
href contains the page-number token, paired with its number. -/
def pageNums (hrefs : List String) : List (Nat × String) :=
  hrefs.filterMap fun h =>
    match findTok h.toList with
    | some (_, ds, _) => some (natOfDigs ds, h)
    | none => none

/-- Strategy 3: among the numeric pagination links, the first link numbered
exactly `current + 1`; otherwise, if some link carries a larger number,
synthesize the next URL from the current one. -/
def numericCandidate (page : Page) (cur : String) : Option String :=
  let currentN := extract_page_num cur
  let nums := pageNums page.paginationHrefs
  if nums = [] then none
  else
    match nums.find? fun p => p.1 = currentN + 1 with
    | some p => some (urljoin tmBase p.2)
    | none =>
      if currentN < (nums.map Prod.fst).foldl max 0 then
        some (build_next_from_current cur (currentN + 1))
      else none

/-- Strategy 4 (last resort): if the page looks full, assume a next page
exists and synthesize it. -/
def fullPageCandidate (page : Page) (cur : String) : Option String :=
  if PAGE_SIZE_HINT ≤ page.rows.length then
    some (build_next_from_current cur (extract_page_num cur + 1))
  else none

/-- The ordered next-page strategy chain of `run_script` (lines 188-226):
each later strategy runs only when every earlier one produced nothing. -/
def resolveNext (page : Page) (cur : String) : Option String :=
  match relNextCandidate page with
  | some u => some u
  | none =>
    match rightCandidate page with
    | some u => some u
    | none =>
      match numericCandidate page cur with
      | some u => some u
      | none => fullPageCandidate page cur

/-- The final guard of the loop (lines 229-233): the chain's candidate
becomes the next current URL only when it is truthy and not yet visited;
otherwise the current URL becomes `None`. -/
def selectNext (visited : List String) : Option String → Option String
  | none => none
  | some nu => if nu ≠ "" ∧ nu ∉ visited then some nu else none

/-- Result of one index's pagination walk: the accumulated output rows, the
`visited` set (as a list, most recent first), the URLs fetched in order, and
whether the loop exited by its own guard (`finished = false` only when the
step budget ran out before the loop ended). -/
structure WalkResult where
  rows : List (List String)
  visited : List String
  fetched : List String
  finished : Bool
deriving DecidableEq, Repr

/-- The per-index pagination loop of `run_script` (lines 150-236), with an
explicit step budget: while the current URL is truthy and unvisited, mark it
visited and fetch it (`site` returns `none` when `fetch_url` exhausts its
retries); stop on fetch failure or an empty row list; otherwise emit the
page's rows and continue with the guarded candidate of the strategy chain. -/
def walk (site : String → Option Page) (dateText : String) :
    Nat → Option String → List String → List (List String) → List String → WalkResult
  | _, none, visited, rows, fetched => ⟨rows, visited, fetched, true⟩
  | 0, some _, visited, rows, fetched => ⟨rows, visited, fetched, false⟩
  | fuel + 1, some cur, visited, rows, fetched =>
    if cur = "" ∨ cur ∈ visited then ⟨rows, visited, fetched, true⟩
    else
      match site cur with
      | none => ⟨rows, cur :: visited, fetched ++ [cur], true⟩
      | some page =>
        if page.rows = [] then ⟨rows, cur :: visited, fetched ++ [cur], true⟩
        else
          walk site dateText fuel
            (selectNext (cur :: visited) (resolveNext page cur))
            (cur :: visited)
            (rows ++ page.rows.filterMap (emitRow dateText))
            (fetched ++ [cur])

/-- The outer loop over `dates_list`: each `(date_text, date_url)` target is
walked with fresh `visited`/`current_url` state, and its rows are appended
to the shared `all_rows` accumulator. -/
def crawlRows (site : String → Option Page) (fuel : Nat) :
    List (String × String) → List (List String)
  | [] => []
  | (dateText, dateUrl) :: rest =>
    (walk site dateText fuel (some dateUrl) [] [] []).rows ++ crawlRows site fuel rest

/-- One fetch-with-retries call: the final result, the backoff sleeps
performed (in order), and how many attempts were made. -/
structure FetchTrace where
  result : Option Nat
  sleeps : List Nat
  attemptsMade : Nat
deriving DecidableEq, Repr

/-- `fetch_url` from `src/main.py` (lines 17-32), over an oracle giving each
attempt's outcome (`some r` when the GET succeeds with a 2xx parseable
response `r`, `none` when the attempt raises): try attempts in order,
sleeping `2 ** attempt` between consecutive failures, and give up with
`None` after the last allowed attempt. -/
def fetchGo (outcome : Nat → Option Nat) : Nat → Nat → List Nat → FetchTrace
  | 0, attempt, sleeps => ⟨none, sleeps, attempt⟩
  | remaining + 1, attempt, sleeps =>
    match outcome attempt with
    | some r => ⟨some r, sleeps, attempt + 1⟩
    | none =>
      if remaining = 0 then ⟨none, sleeps, attempt + 1⟩
      else fetchGo outcome remaining (attempt + 1) (sleeps ++ [2 ^ attempt])

/-- `fetch_url(url, headers, retries=3)`: run the attempt loop from attempt
0 with an empty sleep log. -/
def fetch_url (outcome : Nat → Option Nat) (retries : Nat := 3) : FetchTrace :=
  fetchGo outcome retries 0 []

/-- The `%m` directive of `strptime` (regex `1[0-2]|0[1-9]|[1-9]`): a month
number and the remaining characters. -/
def parseMonth : List Char → Option (Nat × List Char)
  | c0 :: c1 :: rest =>
    if c0 = '1' ∧ ('0' ≤ c1 ∧ c1 ≤ '2') then some (10 + (c1.toNat - 48), rest)
    else if c0 = '0' ∧ ('1' ≤ c1 ∧ c1 ≤ '9') then some (c1.toNat - 48, rest)
    else if '1' ≤ c0 ∧ c0 ≤ '9' then some (c0.toNat - 48, c1 :: rest)
    else none
  | [c0] => if '1' ≤ c0 ∧ c0 ≤ '9' then some (c0.toNat - 48, []) else none
  | [] => none

/-- The `%d` directive of `strptime` (regex `3[01]|[12]\d|0[1-9]|[1-9]`). -/
def parseDay : List Char → Option (Nat × List Char)
  | c0 :: c1 :: rest =>
    if c0 = '3' ∧ (c1 = '0' ∨ c1 = '1') then some (30 + (c1.toNat - 48), rest)
    else if (c0 = '1' ∨ c0 = '2') ∧ isDig c1 then
      some (10 * (c0.toNat - 48) + (c1.toNat - 48), rest)
    else if c0 = '0' ∧ ('1' ≤ c1 ∧ c1 ≤ '9') then some (c1.toNat - 48, rest)
    else if '1' ≤ c0 ∧ c0 ≤ '9' then some (c0.toNat - 48, c1 :: rest)
    else none
  | [c0] => if '1' ≤ c0 ∧ c0 ≤ '9' then some (c0.toNat - 48, []) else none
  | [] => none

/-- The `%Y` directive of `strptime` (regex `\d\d\d\d`: exactly four
digits). -/
def parseYear4 : List Char → Option (Nat × List Char)
  | a :: b :: c :: d :: rest =>
    if isDig a ∧ isDig b ∧ isDig c ∧ isDig d then
      some (1000 * (a.toNat - 48) + 100 * (b.toNat - 48) + 10 * (c.toNat - 48) +
        (d.toNat - 48), rest)
    else none
  | _ => none

/-- Gregorian leap-year rule used by `datetime.date`. -/
def isLeap (y : Nat) : Bool := y % 4 = 0 && (y % 100 ≠ 0 || y % 400 = 0)

/-- Length of a month as validated by the `datetime` constructor. -/
def daysInMonth (m y : Nat) : Nat :=
  if m = 2 then (if isLeap y then 29 else 28)
  else if m = 4 ∨ m = 6 ∨ m = 9 ∨ m = 11 then 30
  else 31

/-- `datetime.datetime.strptime(s, '%m/%d/%Y')` on character lists: month,
slash, day, slash, four-digit year, end of input, then the `datetime`
constructor's validation (year at least 1, day within the month). -/
def parseMDYL (l : List Char) : Option (Nat × Nat × Nat) :=
  match parseMonth l with
  | none => none
  | some (m, r1) =>
    match r1 with
    | c1 :: r2 =>
      if c1 = '/' then
        match parseDay r2 with
        | none => none
        | some (d, r3) =>
          match r3 with
          | c2 :: r4 =>
            if c2 = '/' then
              match parseYear4 r4 with
              | none => none
              | some (y, r5) =>
                if r5 = [] ∧ 1 ≤ y ∧ d ≤ daysInMonth m y then some (m, d, y) else none
            else none
          | [] => none
      else none
    | [] => none

/-- The date parsing `run_script` applies to the two sheet cells: the single
accepted format is `%m/%d/%Y`. -/
def parseMDY (s : String) : Option (Nat × Nat × Nat) := parseMDYL s.toList

/-- Lexicographic order on `(month, day, year)` triples as calendar dates
(`datetime` comparison). -/
def dateLE (a b : Nat × Nat × Nat) : Bool :=
  let ya := a.2.2; let yb := b.2.2
  ya < yb ∨ (ya = yb ∧ (a.1 < b.1 ∨ (a.1 = b.1 ∧ a.2.1 ≤ b.2.1)))

/-- The date setup of `run_script` (lines 68-77): parse both cells with the
single format, raise the invalid-format error when either fails, then swap
the pair when given in reverse order. -/
def parseDates (startRaw endRaw : String) :
    Except String ((Nat × Nat × Nat) × (Nat × Nat × Nat)) :=
  match parseMDY startRaw, parseMDY endRaw with
  | some s, some e => .ok (if dateLE s e then (s, e) else (e, s))
  | _, _ => .error "Invalid date format in H1 or I1. Use MM/DD/YYYY."

/-! ## Auxiliary predicates for the page-token lemmas -/

/-- The head of `l` is not a digit (vacuously true for `[]`). -/
def headNotDig : List Char → Bool
  | [] => true
  | c :: _ => !isDig c

/-- A page token starts at the head of `l`. -/
def tokStart (l : List Char) : Bool := (pageTokenAt l).isSome

/-- The head of `l` is a digit. -/
def digHead : List Char → Bool
  | [] => false
  | c :: _ => isDig c

/-! ## Lemmas about digit runs -/

theorem takeDigs_spec : ∀ l : List Char, l = (takeDigs l).1 ++ (takeDigs l).2 ∧
    (takeDigs l).1.all isDig ∧ headNotDig (takeDigs l).2 = true := by
  intro l
  induction l with
  | nil => simp [takeDigs, headNotDig]
  | cons c t ih =>
    by_cases h : isDig c
    · simpa [takeDigs, h] using ih
    · simp [takeDigs, h, headNotDig]

theorem takeDigs_append (ds s : List Char) (hds : ds.all isDig = true)
    (hs : headNotDig s = true) : takeDigs (ds ++ s) = (ds, s) := by
  induction ds with
  | nil =>
    cases s with
    | nil => rfl
    | cons c t => simp [headNotDig] at hs; simp [takeDigs, hs]
  | cons c t ih =>
    simp only [List.all_cons, Bool.and_eq_true] at hds
    simp [takeDigs, hds.1, ih hds.2]

theorem digit_char_facts (r : Nat) (h : r < 10) :
    isDig (Char.ofNat (48 + r)) = true ∧ (Char.ofNat (48 + r)).toNat = 48 + r := by
  interval_cases r <;> exact ⟨rfl, rfl⟩

theorem natDigsAux_all_dig : ∀ (fuel n : Nat), (natDigsAux fuel n).all isDig = true := by
  intro fuel
  induction fuel with
  | zero => intro n; rfl
  | succ f ih =>
    intro n
    by_cases h : n = 0
    · simp [natDigsAux, h]
    · simp only [natDigsAux, h, if_false, List.all_append, Bool.and_eq_true]
      exact ⟨ih _, by simpa using (digit_char_facts (n % 10) (Nat.mod_lt _ (by omega))).1⟩

theorem natDigs_all_dig (n : Nat) : (natDigs n).all isDig = true := by
  by_cases h : n = 0
  · simp [natDigs, h]; rfl
  · simp only [natDigs, h, if_false]; exact natDigsAux_all_dig _ _

theorem natDigs_ne_nil (n : Nat) : natDigs n ≠ [] := by
  by_cases h : n = 0
  · simp [natDigs, h]
  · simp [natDigs, natDigsAux, h]

theorem natOfDigs_concat (a : List Char) (c : Char) :
    natOfDigs (a ++ [c]) = 10 * natOfDigs a + (c.toNat - 48) := by
  simp [natOfDigs]

theorem natOfDigs_natDigsAux : ∀ (fuel n : Nat), n < fuel →
    natOfDigs (natDigsAux fuel n) = n := by
  intro fuel
  induction fuel with
  | zero => omega
  | succ f ih =>
    intro n hn
    by_cases h : n = 0
    · simp [natDigsAux, h, natOfDigs]
    · rw [natDigsAux]
      simp only [h, if_false]
      rw [natOfDigs_concat, ih (n / 10) (by omega),
        (digit_char_facts (n % 10) (Nat.mod_lt _ (by omega))).2]
      omega

theorem natOfDigs_natDigs (n : Nat) : natOfDigs (natDigs n) = n := by
  by_cases h : n = 0
  · simp [natDigs, h]; rfl
  · simp only [natDigs, h, if_false]
    exact natOfDigs_natDigsAux _ _ (Nat.lt_succ_self n)

/-! ## Lemmas about token matching -/

theorem takeDigs_fst_ne_nil_iff (y : List Char) :
    (takeDigs y).1 ≠ [] ↔ digHead y = true := by
  cases y with
  | nil => simp [takeDigs, digHead]
  | cons c t => by_cases h : isDig c <;> simp [takeDigs, digHead, h]

theorem digHead_append (y s : List Char) (h : digHead y = true) :
    digHead (y ++ s) = true := by
  cases y with
  | nil => simp [digHead] at h
  | cons c t => simpa [digHead] using h

theorem tokAfterSlash_isSome_iff (x : List Char) :
    (tokAfterSlash x).isSome = true ↔
      (x.take 5 = pageWord ∧ digHead (x.drop 5) = true) ∨
      (x.take 6 = seiteWord ∧ digHead (x.drop 6) = true) := by
  have hex : x.take 5 = pageWord → x.take 6 = seiteWord → False := by
    intro h5 h6
    cases x with
    | nil => simp [pageWord] at h5
    | cons c t =>
      simp only [List.take, pageWord, seiteWord, List.cons.injEq] at h5 h6
      obtain ⟨hc5, -⟩ := h5
      obtain ⟨hc6, -⟩ := h6
      subst hc5
      exact absurd hc6 (by decide)
  have hdig : ∀ y : List Char, ((takeDigs y).1 = [] ↔ digHead y = false) := by
    intro y
    rw [← Bool.not_eq_true, ← takeDigs_fst_ne_nil_iff]
    simp
  unfold tokAfterSlash
  by_cases h5 : x.take 5 = pageWord
  · by_cases hd : (takeDigs (x.drop 5)).1 = []
    · have hdh := (hdig _).1 hd
      simp only [h5, if_true, hd, Option.isSome_none, hdh]
      constructor
      · intro h; exact absurd h (by simp)
      · rintro (⟨-, hcon⟩ | ⟨h6, -⟩)
        · simp at hcon
        · exact absurd (hex h5 h6) id
    · have hdh : digHead (x.drop 5) = true := (takeDigs_fst_ne_nil_iff _).1 hd
      simp [h5, hd, hdh]
  · by_cases h6 : x.take 6 = seiteWord
    · by_cases hd : (takeDigs (x.drop 6)).1 = []
      · have hdh := (hdig _).1 hd
        simp [h5, h6, hd, hdh]
      · have hdh : digHead (x.drop 6) = true := (takeDigs_fst_ne_nil_iff _).1 hd
        simp [h5, h6, hd, hdh]
    · simp [h5, h6]

theorem pageTokenAt_cons (c : Char) (t : List Char) :
    pageTokenAt (c :: t) = if c = '/' then tokAfterSlash t else none := rfl

theorem tokStart_cons_ne (c : Char) (t : List Char) (h : c ≠ '/') :
    tokStart (c :: t) = false := by
  simp [tokStart, pageTokenAt_cons, h]

theorem tokStart_slash (t : List Char) : tokStart ('/' :: t) = (tokAfterSlash t).isSome := by
  simp [tokStart, pageTokenAt_cons]

theorem tokStart_slash_slash (y : List Char) : tokStart ('/' :: '/' :: y) = false := by
  have h : (tokAfterSlash ('/' :: y)).isSome = false := by
    rw [Bool.eq_false_iff]
    intro h
    rcases (tokAfterSlash_isSome_iff _).1 h with ⟨h5, -⟩ | ⟨h6, -⟩
    · simp [pageWord, List.take] at h5
    · simp [seiteWord, List.take] at h6
  simp [tokStart, pageTokenAt_cons, h]

theorem take_eq_of_append (w : List Char) (y : List Char) (k : Nat) (hk : w.length = k) :
    (w ++ y).take k = w := List.take_left' hk

theorem pageTokenAt_repl (n : Nat) (s : List Char) (hs : headNotDig s = true) :
    pageTokenAt (repl n ++ s) = some (natDigs n, s) := by
  have : repl n ++ s = '/' :: (pageWord ++ (natDigs n ++ s)) := by
    simp [repl]
  rw [this, pageTokenAt_cons, if_pos rfl]
  unfold tokAfterSlash
  rw [take_eq_of_append _ _ 5 (by rfl), List.drop_left' (by rfl : pageWord.length = 5),
    takeDigs_append _ _ (natDigs_all_dig n) hs]
  simp [natDigs_ne_nil n]

theorem tokStart_append (l s : List Char) (h : tokStart l = true) :
    tokStart (l ++ s) = true := by
  cases l with
  | nil => simp [tokStart, pageTokenAt] at h
  | cons c t =>
    by_cases hc : c = '/'
    · subst hc
      simp only [tokStart, List.cons_append, pageTokenAt_cons, if_pos rfl, List.append_eq] at h ⊢
      rcases (tokAfterSlash_isSome_iff t).1 h with ⟨h5, hd⟩ | ⟨h6, hd⟩
      · have hlen : 5 ≤ t.length := by
          have : (t.take 5).length = 5 := by rw [h5]; rfl
          simp only [List.length_take] at this; omega
        refine (tokAfterSlash_isSome_iff _).2 (Or.inl ⟨?_, ?_⟩)
        · rw [List.take_append_of_le_length hlen, h5]
        · rw [List.drop_append_of_le_length hlen]; exact digHead_append _ _ hd
      · have hlen : 6 ≤ t.length := by
          have : (t.take 6).length = 6 := by rw [h6]; rfl
          simp only [List.length_take] at this; omega
        refine (tokAfterSlash_isSome_iff _).2 (Or.inr ⟨?_, ?_⟩)
        · rw [List.take_append_of_le_length hlen, h6]
        · rw [List.drop_append_of_le_length hlen]; exact digHead_append _ _ hd
    · rw [tokStart_cons_ne _ _ hc] at h; exact absurd h (by simp)

/-- Boundary lemma: a token starting at the head of `r ++ /page/<n>...` with
`r` nonempty forces a token already starting at the head of `r` alone. -/
theorem tokStart_boundary (r : List Char) (hr : r ≠ []) (n : Nat) (tail : List Char)
    (h : tokStart (r ++ (repl n ++ tail)) = true) : tokStart r = true := by
  rcases r with _ | ⟨c, r'⟩
  · exact absurd rfl hr
  rw [List.cons_append] at h
  by_cases hc : c = '/'
  case neg => rw [tokStart_cons_ne _ _ hc] at h; exact absurd h (by simp)
  subst hc
  rw [tokStart_slash] at h ⊢
  rcases (tokAfterSlash_isSome_iff _).1 h with ⟨h5, hd⟩ | ⟨h6, hd⟩
  · rcases r' with _ | ⟨c1, _ | ⟨c2, _ | ⟨c3, _ | ⟨c4, _ | ⟨c5, _ | ⟨c6, _ | ⟨c7, r8⟩⟩⟩⟩⟩⟩⟩
    · simp +decide [repl, pageWord] at h5
    · simp +decide [repl, pageWord] at h5
    · simp +decide [repl, pageWord] at h5
    · simp +decide [repl, pageWord] at h5
    · simp only [repl, pageWord, List.cons_append, List.nil_append, List.drop_succ_cons,
        List.drop_zero, digHead] at hd
      exact absurd hd (by decide)
    · simp only [repl, pageWord, List.cons_append, List.nil_append, List.drop_succ_cons,
        List.drop_zero, digHead] at hd
      exact absurd hd (by decide)
    · simp only [List.cons_append, List.nil_append, List.take_succ_cons, List.take_zero,
        pageWord, List.cons.injEq, and_true] at h5
      obtain ⟨e1, e2, e3, e4, e5⟩ := h5
      subst e1; subst e2; subst e3; subst e4; subst e5
      simp only [List.cons_append, List.nil_append, List.drop_succ_cons, List.drop_zero,
        digHead] at hd
      apply (tokAfterSlash_isSome_iff _).2
      exact Or.inl ⟨by simp [pageWord], by simpa [digHead]⟩
    · simp only [List.cons_append, List.take_succ_cons, List.take_zero, pageWord,
        List.cons.injEq, and_true] at h5
      obtain ⟨e1, e2, e3, e4, e5⟩ := h5
      subst e1; subst e2; subst e3; subst e4; subst e5
      simp only [List.cons_append, List.drop_succ_cons, List.drop_zero, digHead] at hd
      apply (tokAfterSlash_isSome_iff _).2
      exact Or.inl ⟨by simp [pageWord], by simpa [digHead]⟩
  · rcases r' with _ | ⟨c1, _ | ⟨c2, _ | ⟨c3, _ | ⟨c4, _ | ⟨c5, _ | ⟨c6, _ | ⟨c7, r8⟩⟩⟩⟩⟩⟩⟩
    · simp +decide [repl, seiteWord] at h6
    · simp +decide [repl, seiteWord] at h6
    · simp +decide [repl, seiteWord] at h6
    · simp +decide [repl, seiteWord] at h6
    · simp +decide [repl, seiteWord] at h6
    · simp only [repl, seiteWord, pageWord, List.cons_append, List.nil_append,
        List.drop_succ_cons, List.drop_zero, digHead] at hd
      exact absurd hd (by decide)
    · simp only [repl, seiteWord, pageWord, List.cons_append, List.nil_append,
        List.drop_succ_cons, List.drop_zero, digHead] at hd
      exact absurd hd (by decide)
    · simp only [List.cons_append, List.take_succ_cons, List.take_zero, seiteWord,
        List.cons.injEq, and_true] at h6
      obtain ⟨e1, e2, e3, e4, e5, e6⟩ := h6
      subst e1; subst e2; subst e3; subst e4; subst e5; subst e6
      simp only [List.cons_append, List.drop_succ_cons, List.drop_zero, digHead] at hd
      apply (tokAfterSlash_isSome_iff _).2
      exact Or.inr ⟨by simp [seiteWord], by simpa [digHead]⟩

/-! ## Lemmas about the leftmost token search -/

theorem findTok_none_drops (l : List Char) (h : findTok l = none) :
    ∀ i, tokStart (l.drop i) = false := by
  induction l with
  | nil => intro i; simp [tokStart, List.drop_nil, pageTokenAt]
  | cons c t ih =>
    intro i
    unfold findTok at h
    rcases hp : pageTokenAt (c :: t) with _ | ⟨ds, rest⟩
    · rw [hp] at h
      rcases hf : findTok t with _ | ⟨pre, ds, rest⟩
      · cases i with
        | zero => simp [tokStart, hp]
        | succ j => simpa using ih hf j
      · rw [hf] at h; simp at h
    · rw [hp] at h; simp at h

theorem findTok_first (l : List Char) : ∀ (pre ds rest : List Char),
    findTok l = some (pre, ds, rest) → ∀ i < pre.length, tokStart (l.drop i) = false := by
  induction l with
  | nil => intro pre ds rest h; simp [findTok] at h
  | cons c t ih =>
    intro pre ds rest h i hi
    unfold findTok at h
    rcases hp : pageTokenAt (c :: t) with _ | ⟨ds', rest'⟩
    · rw [hp] at h
      rcases hf : findTok t with _ | ⟨⟨pre', ds'', rest''⟩⟩
      · rw [hf] at h; simp at h
      · rw [hf] at h
        simp only [Option.some.injEq, Prod.mk.injEq] at h
        obtain ⟨hpre, -, -⟩ := h
        subst hpre
        cases i with
        | zero => simp [tokStart, hp]
        | succ j =>
          simp only [List.length_cons, Nat.succ_lt_succ_iff] at hi
          simpa using ih pre' ds'' rest'' hf j hi
    · rw [hp] at h
      simp only [Option.some.injEq, Prod.mk.injEq] at h
      obtain ⟨hpre, -, -⟩ := h
      subst hpre
      simp at hi

theorem pageTokenAt_decomp (x ds rest : List Char) (h : pageTokenAt x = some (ds, rest)) :
    ∃ w, (w = pageWord ∨ w = seiteWord) ∧ x = '/' :: (w ++ (ds ++ rest)) ∧
      ds ≠ [] ∧ ds.all isDig = true ∧ headNotDig rest = true := by
  rcases x with _ | ⟨c, t⟩
  · simp [pageTokenAt] at h
  rw [pageTokenAt_cons] at h
  by_cases hc : c = '/'
  case neg => simp [hc] at h
  subst hc
  rw [if_pos rfl] at h
  unfold tokAfterSlash at h
  by_cases h5 : t.take 5 = pageWord
  · rw [if_pos h5] at h
    by_cases hnil : (takeDigs (t.drop 5)).1 = []
    · simp [hnil] at h
    · rw [if_neg hnil] at h
      simp only [Option.some.injEq] at h
      have hspec := takeDigs_spec (t.drop 5)
      rw [h] at hspec hnil
      refine ⟨pageWord, Or.inl rfl, ?_, by simpa using hnil, hspec.2.1, hspec.2.2⟩
      have ht : t = t.take 5 ++ t.drop 5 := (List.take_append_drop 5 t).symm
      rw [h5, hspec.1] at ht
      rw [ht]
  · rw [if_neg h5] at h
    by_cases h6 : t.take 6 = seiteWord
    · rw [if_pos h6] at h
      by_cases hnil : (takeDigs (t.drop 6)).1 = []
      · simp [hnil] at h
      · rw [if_neg hnil] at h
        simp only [Option.some.injEq] at h
        have hspec := takeDigs_spec (t.drop 6)
        rw [h] at hspec hnil
        refine ⟨seiteWord, Or.inr rfl, ?_, by simpa using hnil, hspec.2.1, hspec.2.2⟩
        have ht : t = t.take 6 ++ t.drop 6 := (List.take_append_drop 6 t).symm
        rw [h6, hspec.1] at ht
        rw [ht]
    · simp [h6] at h

theorem findTok_decomp (l : List Char) : ∀ (pre ds rest : List Char),
    findTok l = some (pre, ds, rest) →
    ∃ w, (w = pageWord ∨ w = seiteWord) ∧ l = pre ++ ('/' :: (w ++ (ds ++ rest))) ∧
      ds ≠ [] ∧ ds.all isDig = true ∧ headNotDig rest = true := by
  induction l with
  | nil => intro pre ds rest h; simp [findTok] at h
  | cons c t ih =>
    intro pre ds rest h
    unfold findTok at h
    rcases hp : pageTokenAt (c :: t) with _ | ⟨⟨ds', rest'⟩⟩
    · rw [hp] at h
      rcases hf : findTok t with _ | ⟨⟨pre', ds'', rest''⟩⟩
      · rw [hf] at h; simp at h
      · rw [hf] at h
        simp only [Option.some.injEq, Prod.mk.injEq] at h
        obtain ⟨hpre, hds, hrest⟩ := h
        subst hpre; subst hds; subst hrest
        obtain ⟨w, hw, ht, h1, h2, h3⟩ := ih pre' _ _ hf
        exact ⟨w, hw, by rw [List.cons_append, ← ht], h1, h2, h3⟩
    · rw [hp] at h
      simp only [Option.some.injEq, Prod.mk.injEq] at h
      obtain ⟨hpre, hds, hrest⟩ := h
      subst hpre
      rw [hds, hrest] at hp
      obtain ⟨w, hw, ht, h1, h2, h3⟩ := pageTokenAt_decomp (c :: t) _ _ hp
      exact ⟨w, hw, by rw [ht, List.nil_append], h1, h2, h3⟩

theorem findTok_append_left (a b ds r : List Char)
    (hb : pageTokenAt b = some (ds, r))
    (ha : ∀ i < a.length, tokStart ((a ++ b).drop i) = false) :
    findTok (a ++ b) = some (a, ds, r) := by
  induction a with
  | nil =>
    rcases b with _ | ⟨c, t⟩
    · simp [pageTokenAt] at hb
    · simp only [List.nil_append]
      unfold findTok
      rw [hb]
  | cons c a' ih =>
    rw [List.cons_append]
    unfold findTok
    have h0 := ha 0 (by simp)
    rw [List.drop_zero, List.cons_append] at h0
    have hp : pageTokenAt (c :: (a' ++ b)) = none := by
      rw [tokStart] at h0
      exact Option.not_isSome_iff_eq_none.1 (by simp [h0])
    rw [hp]
    have ha' : ∀ i < a'.length, tokStart ((a' ++ b).drop i) = false := by
      intro i hi
      have := ha (i + 1) (by simpa using Nat.succ_lt_succ hi)
      rw [List.cons_append] at this
      simpa using this
    rw [ih ha']

/-! ## The substitution lemma: after `re.sub`, the first token reads `n` -/

theorem subAllGo_eq_some (n f : Nat) (l pre ds rest : List Char)
    (hf : findTok l = some (pre, ds, rest)) :
    subAllGo n (f + 1) l = pre ++ repl n ++ subAllGo n f rest := by
  conv_lhs => unfold subAllGo
  rw [hf]

theorem subAllGo_eq_none (n f : Nat) (l : List Char) (hf : findTok l = none) :
    subAllGo n (f + 1) l = l := by
  conv_lhs => unfold subAllGo
  rw [hf]

theorem headNotDig_subAllGo (n fuel : Nat) (l : List Char) (h : headNotDig l = true) :
    headNotDig (subAllGo n fuel l) = true := by
  cases fuel with
  | zero => simpa [subAllGo]
  | succ f =>
    rcases hf : findTok l with _ | ⟨⟨pre, ds, rest⟩⟩
    · rw [subAllGo_eq_none n f l hf]; exact h
    · rw [subAllGo_eq_some n f l pre ds rest hf]
      obtain ⟨w, hw, hl, -, -, -⟩ := findTok_decomp l pre ds rest hf
      cases pre with
      | nil =>
        simp only [List.nil_append, repl, List.cons_append]
        simp only [headNotDig]
        decide
      | cons p ps =>
        rw [hl] at h
        simp only [List.cons_append] at h ⊢
        simpa [headNotDig] using h

theorem findTok_subAllGo (n : Nat) : ∀ (fuel : Nat) (l : List Char), l.length ≤ fuel →
    (findTok l).isSome = true →
    ∃ pre rest, findTok (subAllGo n fuel l) = some (pre, natDigs n, rest) := by
  intro fuel
  induction fuel with
  | zero =>
    intro l hl hs
    have hnil : l = [] := List.length_eq_zero.1 (by omega)
    subst hnil; simp [findTok] at hs
  | succ f ih =>
    intro l hl hs
    rcases hf : findTok l with _ | ⟨⟨pre, ds, rest⟩⟩
    · rw [hf] at hs; simp at hs
    · obtain ⟨w, hw, hl2, hds, hdig, hnd⟩ := findTok_decomp l pre ds rest hf
      have hwlen : w.length = 5 ∨ w.length = 6 := by
        rcases hw with h | h <;> subst h <;> simp [pageWord, seiteWord]
      have hdslen : 1 ≤ ds.length := by
        cases ds with
        | nil => exact absurd rfl hds
        | cons d t => simp
      have hrest_len : rest.length ≤ f := by
        have hlen2 : l.length = pre.length + (1 + (w.length + (ds.length + rest.length))) := by
          rw [hl2]; simp only [List.length_append, List.length_cons]; omega
        omega
      have hheadS : headNotDig (subAllGo n f rest) = true := headNotDig_subAllGo n f rest hnd
      have hb : pageTokenAt (repl n ++ subAllGo n f rest) = some (natDigs n, subAllGo n f rest) :=
        pageTokenAt_repl n _ hheadS
      have ha : ∀ i < pre.length,
          tokStart ((pre ++ (repl n ++ subAllGo n f rest)).drop i) = false := by
        intro i hi
        rw [List.drop_append_of_le_length (le_of_lt hi), Bool.eq_false_iff]
        intro htok
        have hne : pre.drop i ≠ [] := by
          rw [Ne, List.drop_eq_nil_iff]; omega
        have h1 : tokStart (pre.drop i) = true := tokStart_boundary _ hne n _ htok
        have h2 : tokStart ((pre.drop i) ++ ('/' :: (w ++ (ds ++ rest)))) = true :=
          tokStart_append _ _ h1
        have h3 : l.drop i = pre.drop i ++ ('/' :: (w ++ (ds ++ rest))) := by
          rw [hl2, List.drop_append_of_le_length (le_of_lt hi)]
        have h4 := findTok_first l pre ds rest hf i hi
        rw [h3, h2] at h4
        exact absurd h4 (by simp)
      have hres := findTok_append_left pre (repl n ++ subAllGo n f rest) (natDigs n) _ hb ha
      refine ⟨pre, subAllGo n f rest, ?_⟩
      rw [subAllGo_eq_some n f l pre ds rest hf, List.append_assoc]
      exact hres

theorem extract_subAll (n : Nat) (l : List Char) (hs : (findTok l).isSome = true) :
    extractPageNumL (subAll n l) = n := by
  obtain ⟨pre, rest, h⟩ := findTok_subAllGo n l.length l (le_refl _) hs
  unfold subAll
  unfold extractPageNumL
  rw [h]
  exact natOfDigs_natDigs n

/-! ## Region lemmas for the reassembled URL of the no-token branch -/

theorem charOfNat_toNat (n : Nat) (h : n < 55000) : (Char.ofNat n).toNat = n := by
  have hv : n.isValidChar := Or.inl (by omega)
  unfold Char.ofNat
  rw [dif_pos hv]
  rfl

theorem lowerChar_ne_slash (c : Char) (h : isSchemeChar c = true) : lowerChar c ≠ '/' := by
  unfold lowerChar
  by_cases hu : 65 ≤ c.toNat && c.toNat ≤ 90
  · rw [if_pos hu]
    simp only [Bool.and_eq_true, decide_eq_true_eq] at hu
    intro heq
    have := congrArg Char.toNat heq
    rw [charOfNat_toNat _ (by omega)] at this
    have : c.toNat + 32 = 47 := this
    omega
  · rw [if_neg hu]
    intro heq
    subst heq
    exact absurd h (by decide)

theorem noTok_no_slash (a z : List Char) (h : ∀ c ∈ a, c ≠ '/') :
    ∀ i < a.length, tokStart ((a ++ z).drop i) = false := by
  intro i hi
  rw [List.drop_append_of_le_length (le_of_lt hi)]
  rcases hd : a.drop i with _ | ⟨c, t⟩
  · rw [List.drop_eq_nil_iff] at hd; omega
  · rw [List.cons_append]
    refine tokStart_cons_ne c _ (h c ?_)
    exact List.mem_of_mem_drop (hd ▸ List.mem_cons_self c t)

theorem noTok_via_source (a T : List Char) (n : Nat) (X : List Char)
    (hT : ∀ j, tokStart ((a ++ T).drop j) = false) :
    ∀ j < a.length, tokStart ((a ++ (repl n ++ X)).drop j) = false := by
  intro j hj
  rw [List.drop_append_of_le_length (le_of_lt hj), Bool.eq_false_iff]
  intro htok
  have hne : a.drop j ≠ [] := by rw [Ne, List.drop_eq_nil_iff]; omega
  have h1 := tokStart_boundary _ hne n _ htok
  have h2 := tokStart_append _ T h1
  have h3 := hT j
  rw [List.drop_append_of_le_length (le_of_lt hj), h2] at h3
  exact absurd h3 (by simp)

theorem noTok_combine (a b z : List Char)
    (h1 : ∀ i < a.length, tokStart ((a ++ (b ++ z)).drop i) = false)
    (h2 : ∀ i < b.length, tokStart ((b ++ z).drop i) = false) :
    ∀ i < (a ++ b).length, tokStart (((a ++ b) ++ z).drop i) = false := by
  intro i hi
  rw [List.append_assoc]
  by_cases hc : i < a.length
  · exact h1 i hc
  · have heq : i = a.length + (i - a.length) := by omega
    rw [heq, List.drop_append]
    have hib : i - a.length < b.length := by
      simp only [List.length_append] at hi; omega
    exact h2 (i - a.length) hib

theorem noTokAll_of_suffix (u ctx v : List Char) (hu : u = ctx ++ v)
    (h : ∀ i, tokStart (u.drop i) = false) : ∀ i, tokStart (v.drop i) = false := by
  intro i
  have := h (ctx.length + i)
  rwa [hu, List.drop_append] at this

/-! ## Decomposition of the URL-splitting helpers -/

theorem splitOn1_spec (ch : Char) : ∀ (u a b : List Char), splitOn1 ch u = (a, b) →
    (u = a ∧ b = []) ∨ u = a ++ ch :: b := by
  intro u
  induction u with
  | nil =>
    intro a b h
    simp only [splitOn1, Prod.mk.injEq] at h
    exact Or.inl ⟨h.1, h.2.symm⟩
  | cons c t ih =>
    intro a b h
    unfold splitOn1 at h
    by_cases hc : c = ch
    · rw [if_pos hc] at h
      simp only [Prod.mk.injEq] at h
      right
      rw [← h.1, ← h.2, List.nil_append, hc]
    · rw [if_neg hc] at h
      rcases hp : splitOn1 ch t with ⟨a', b'⟩
      simp only [hp, Prod.mk.injEq] at h
      obtain ⟨ha, hb⟩ := h
      rcases ih a' b' hp with ⟨ht, hb'⟩ | ht
      · left
        constructor
        · rw [← ha, ht]
        · rw [← hb, hb']
      · right
        rw [← ha, ← hb, List.cons_append, ← ht]

theorem splitNetloc_spec (u nl r : List Char) (h : splitNetloc u = (nl, r)) :
    (nl = [] ∧ r = u ∧ ¬u.take 2 = ['/', '/']) ∨
    (u = '/' :: '/' :: (nl ++ r) ∧ ∀ c ∈ nl, isNetlocEnd c = false) := by
  unfold splitNetloc at h
  by_cases h2 : u.take 2 = ['/', '/']
  · rw [if_pos h2] at h
    simp only [Prod.mk.injEq] at h
    right
    constructor
    · have hu : u = u.take 2 ++ u.drop 2 := (List.take_append_drop 2 u).symm
      rw [h2] at hu
      rw [hu, ← h.1, ← h.2, List.takeWhile_append_dropWhile]
      rfl
    · intro c hc
      rw [← h.1] at hc
      have := List.mem_takeWhile_imp hc
      simpa using this
  · rw [if_neg h2] at h
    simp only [Prod.mk.injEq] at h
    exact Or.inl ⟨h.1.symm, h.2.symm, h2⟩

theorem findColon_decomp (l : List Char) : ∀ i, findColon l = some i →
    ∃ a b, l = a ++ ':' :: b ∧ a.length = i := by
  induction l with
  | nil => intro i h; simp [findColon] at h
  | cons c t ih =>
    intro i h
    unfold findColon at h
    by_cases hc : c = ':'
    · rw [if_pos hc] at h
      simp only [Option.some.injEq] at h
      subst hc
      exact ⟨[], t, by simp, by simp [← h]⟩
    · rw [if_neg hc] at h
      rcases hf : findColon t with _ | j
      · rw [hf] at h; simp at h
      · rw [hf] at h
        simp only [Option.map_some', Option.some.injEq] at h
        obtain ⟨a, b, hab, hlen⟩ := ih j hf
        exact ⟨c :: a, b, by rw [hab]; simp, by simp [hlen, ← h]⟩

theorem splitScheme_spec (u s r : List Char) (h : splitScheme u = (s, r)) :
    (s = [] ∧ r = u) ∨
    (∃ raw, u = raw ++ ':' :: r ∧ s = raw.map lowerChar ∧
      raw.all isSchemeChar = true ∧ raw ≠ []) := by
  unfold splitScheme at h
  split at h
  case h_2 =>
    simp only [Prod.mk.injEq] at h
    exact Or.inl ⟨h.1.symm, h.2.symm⟩
  case h_1 i hf =>
    split at h
    case isFalse =>
      simp only [Prod.mk.injEq] at h
      exact Or.inl ⟨h.1.symm, h.2.symm⟩
    case isTrue hc =>
      simp only [Prod.mk.injEq] at h
      obtain ⟨a, b, hab, hlen⟩ := findColon_decomp u i hf
      have hta : u.take i = a := by
        rw [hab, ← hlen, List.take_left]
      have hda : u.drop (i + 1) = b := by
        rw [hab, ← hlen, List.drop_append]
        rfl
      right
      refine ⟨a, ?_, ?_, ?_, ?_⟩
      · rw [hab, ← h.2, hda]
      · rw [← h.1, hta]
      · rw [← hta]; exact hc.2.1
      · intro hnil
        rw [hnil] at hlen
        simp at hlen
        omega

theorem rstripSlash_decomp (l : List Char) :
    ∃ k, l = rstripSlash l ++ List.replicate k '/' := by
  refine ⟨(l.reverse.takeWhile (· = '/')).length, ?_⟩
  unfold rstripSlash
  have h1 : l = (l.reverse.takeWhile (· = '/') ++ l.reverse.dropWhile (· = '/')).reverse := by
    rw [List.takeWhile_append_dropWhile, List.reverse_reverse]
  have h2 : (l.reverse.takeWhile (· = '/')).reverse
      = List.replicate (l.reverse.takeWhile (· = '/')).length '/' := by
    have hall : ∀ c ∈ (l.reverse.takeWhile (· = '/')).reverse, c = '/' := by
      intro c hc
      rw [List.mem_reverse] at hc
      simpa using List.mem_takeWhile_imp hc
    rw [List.eq_replicate_of_mem hall, List.length_reverse]
  conv_lhs => rw [h1]
  rw [List.reverse_append, h2]

theorem rstripSlash_nil : rstripSlash [] = [] := rfl

theorem take_one_append (P y : List Char) (h : P.take 1 = ['/']) :
    (P ++ y).take 1 = ['/'] := by
  have hlen : 1 ≤ P.length := by
    cases P with
    | nil => simp at h
    | cons a t => simp
  rw [List.take_append_of_le_length hlen, h]

theorem eq_cons_of_take_one (P : List Char) (h : P.take 1 = ['/']) :
    P = '/' :: P.drop 1 := by
  conv_lhs => rw [← List.take_append_drop 1 P]
  rw [h]
  rfl

theorem headNotDig_qf (q fr : List Char) :
    headNotDig ((if q ≠ [] then '?' :: q else []) ++ (if fr ≠ [] then '#' :: fr else [])) = true := by
  by_cases hq : q = [] <;> by_cases hf : fr = [] <;>
    simp [hq, hf, headNotDig] <;> decide

/-- Shape of `urlunsplitL` when the path begins with a slash (so the
slash-insertion branch cannot fire). -/
theorem urlunsplitL_no_insert (s : SplitURL) (h : s.path.take 1 = ['/']) :
    urlunsplitL s =
      ((if s.scheme ≠ [] then s.scheme ++ [':'] else []) ++
        ((if s.netloc ≠ [] ∨ (s.scheme ≠ [] ∧ String.mk s.scheme ∈ usesNetloc ∧
            s.path.take 2 ≠ ['/', '/']) then '/' :: '/' :: s.netloc else []) ++ s.path)) ++
      ((if s.query ≠ [] then '?' :: s.query else []) ++
        (if s.fragment ≠ [] then '#' :: s.fragment else [])) := by
  rcases s with ⟨sc, nlc, pc, qc, fc⟩
  simp only at h
  have hpc : ¬(pc ≠ [] ∧ pc.take 1 ≠ ['/']) := fun hcon => hcon.2 h
  simp only [urlunsplitL]
  rw [if_neg hpc]
  by_cases hc1 : nlc ≠ [] ∨ (sc ≠ [] ∧ String.mk sc ∈ usesNetloc ∧ pc.take 2 ≠ ['/', '/'])
  · simp only [hc1, if_true]
    by_cases hc2 : sc = [] <;> by_cases hc3 : qc = [] <;> by_cases hc4 : fc = [] <;>
      simp [hc2, hc3, hc4, List.append_assoc]
  · simp only [hc1, if_false]
    by_cases hc2 : sc = [] <;> by_cases hc3 : qc = [] <;> by_cases hc4 : fc = [] <;>
      simp [hc2, hc3, hc4, List.append_assoc]

/-- The no-token branch of `build_next_from_current`: the reassembled URL's
first page token is the appended `/page/<n>`. -/
theorem extract_buildNext_notok (u : List Char) (n : Nat)
    (hno : findTok u = none)
    (hpath : (urlsplitL u).path = [] ∨ (urlsplitL u).path.take 1 = ['/']) :
    extractPageNumL (buildNextL u n) = n := by
  have noTokU : ∀ i, tokStart (u.drop i) = false := findTok_none_drops u hno
  rcases hss : splitScheme u with ⟨sch, r1⟩
  rcases hsn : splitNetloc r1 with ⟨nl, r2⟩
  rcases hsf : splitOn1 '#' r2 with ⟨r3, fr⟩
  rcases hsq : splitOn1 '?' r3 with ⟨path, q⟩
  have husp : urlsplitL u = ⟨sch, nl, path, q, fr⟩ := by
    unfold urlsplitL
    simp only [hss, hsn, hsf, hsq]
  have hbuild : buildNextL u n =
      urlunsplitL ⟨sch, nl, rstripSlash path ++ repl n, q, fr⟩ := by
    have : buildNextL u n = urlunsplitL ⟨(urlsplitL u).scheme, (urlsplitL u).netloc,
        rstripSlash (urlsplitL u).path ++ repl n, (urlsplitL u).query,
        (urlsplitL u).fragment⟩ := by
      unfold buildNextL
      rw [hno]
    rw [this, husp]
  rw [husp] at hpath
  simp only at hpath
  set P := rstripSlash path with hP
  obtain ⟨k, hk⟩ := rstripSlash_decomp path
  -- the stripped path is empty or begins with a slash
  have hP1 : P = [] ∨ P.take 1 = ['/'] := by
    rcases hpath with h0 | h1
    · left; rw [hP, h0, rstripSlash_nil]
    · rcases hp0 : P with _ | ⟨p0, P'⟩
      · exact Or.inl rfl
      · right
        rw [← hP] at hk
        rw [hp0] at hk
        rw [hk] at h1
        simpa using h1
  -- the path continues into query and fragment inside r2
  have hpost : ∃ X, r2 = path ++ X := by
    rcases splitOn1_spec '#' r2 r3 fr hsf with ⟨h2, -⟩ | h2 <;>
      rcases splitOn1_spec '?' r3 path q hsq with ⟨h3, -⟩ | h3
    · exact ⟨[], by rw [h2, h3, List.append_nil]⟩
    · exact ⟨'?' :: q, by rw [h2, h3]⟩
    · exact ⟨'#' :: fr, by rw [h2, h3]⟩
    · exact ⟨'?' :: q ++ '#' :: fr, by rw [h2, h3, List.append_assoc]⟩
  obtain ⟨X, hX⟩ := hpost
  -- no token anywhere in the post-scheme remainder
  have noTokR1 : ∀ i, tokStart (r1.drop i) = false := by
    rcases splitScheme_spec u sch r1 hss with ⟨-, hr1⟩ | ⟨raw, hraw, -, -, -⟩
    · rw [hr1]; exact noTokU
    · exact noTokAll_of_suffix u (raw ++ [':']) r1 (by rw [hraw, List.append_cons]) noTokU
  -- the scheme part contains no slash
  have hschpart : ∀ c ∈ (if sch ≠ [] then sch ++ [':'] else []), c ≠ '/' := by
    by_cases hsch : sch = []
    · simp [hsch]
    · rw [if_pos hsch]
      rcases splitScheme_spec u sch r1 hss with ⟨habs, -⟩ | ⟨raw, -, hmap, hall, -⟩
      · exact absurd habs hsch
      · intro c hc
        rcases List.mem_append.1 hc with hcs | hcc
        · rw [hmap] at hcs
          obtain ⟨c', hc', rfl⟩ := List.mem_map.1 hcs
          exact lowerChar_ne_slash c' (by
            rw [List.all_eq_true] at hall
            exact hall c' hc')
        · simp only [List.mem_singleton] at hcc
          subst hcc
          decide
  -- abbreviations for the parts of the reassembled URL
  set QF : List Char :=
    (if q ≠ [] then '?' :: q else []) ++ (if fr ≠ [] then '#' :: fr else []) with hQF
  have hqf : headNotDig QF = true := headNotDig_qf q fr
  have hb : pageTokenAt (repl n ++ QF) = some (natDigs n, QF) := pageTokenAt_repl n QF hqf
  -- the slash-insertion branch of urlunsplit never fires here
  have htake1 : (P ++ repl n).take 1 = ['/'] := by
    rcases hP1 with h0 | h1
    · rw [h0, List.nil_append]
      simp [repl]
    · exact take_one_append P (repl n) h1
  -- shape of the reassembled URL
  have hshape : urlunsplitL ⟨sch, nl, P ++ repl n, q, fr⟩ =
      ((if sch ≠ [] then sch ++ [':'] else []) ++
        ((if nl ≠ [] ∨ (sch ≠ [] ∧ String.mk sch ∈ usesNetloc ∧
            (P ++ repl n).take 2 ≠ ['/', '/']) then '/' :: '/' :: nl else []) ++ P)) ++
        (repl n ++ QF) := by
    rw [urlunsplitL_no_insert ⟨sch, nl, P ++ repl n, q, fr⟩ htake1, hQF]
    simp only [List.append_assoc]
  -- the region before the appended token never starts a token
  have hP_region : ∀ z, (∀ j, tokStart ((path ++ X).drop j) = false) →
      ∀ i < P.length, tokStart ((P ++ (repl n ++ z)).drop i) = false := by
    intro z hsrc
    refine noTok_via_source P (List.replicate k '/' ++ X) n z ?_
    intro j
    have : P ++ (List.replicate k '/' ++ X) = path ++ X := by
      rw [← List.append_assoc, ← hk]
    rw [this]
    exact hsrc j
  have hA : ∀ i < ((if sch ≠ [] then sch ++ [':'] else []) ++
      ((if nl ≠ [] ∨ (sch ≠ [] ∧ String.mk sch ∈ usesNetloc ∧
          (P ++ repl n).take 2 ≠ ['/', '/']) then '/' :: '/' :: nl else []) ++ P)).length,
      tokStart ((((if sch ≠ [] then sch ++ [':'] else []) ++
        ((if nl ≠ [] ∨ (sch ≠ [] ∧ String.mk sch ∈ usesNetloc ∧
            (P ++ repl n).take 2 ≠ ['/', '/']) then '/' :: '/' :: nl else []) ++ P)) ++
        (repl n ++ QF)).drop i) = false := by
    apply noTok_combine
    · exact noTok_no_slash _ _ hschpart
    · -- the netloc-or-synthetic-slash region followed by the stripped path
      rcases splitNetloc_spec r1 nl r2 hsn with ⟨hnl0, hr2, -⟩ | ⟨hr1, -⟩
      · -- the remainder did not begin with //
        by_cases hcond : nl ≠ [] ∨ (sch ≠ [] ∧ String.mk sch ∈ usesNetloc ∧
          (P ++ repl n).take 2 ≠ ['/', '/'])
        · rw [if_pos hcond]
          have hnl0' : ('/' :: '/' :: nl) = ['/', '/'] := by rw [hnl0]
          rw [hnl0']
          apply noTok_combine ['/', '/'] P (repl n ++ QF)
          · intro i hi
            have hi2 : i < 2 := by simpa using hi
            clear hi
            interval_cases i
            · exact tokStart_slash_slash _
            · show tokStart ((['/', '/'] ++ (P ++ (repl n ++ QF))).drop 1) = false
              rcases hP1 with h0 | h1
              · rw [h0]
                simp only [List.nil_append, List.cons_append, List.drop_succ_cons,
                  List.drop_zero, repl]
                exact tokStart_slash_slash _
              · rw [eq_cons_of_take_one P h1]
                simp only [List.cons_append, List.drop_succ_cons, List.drop_zero]
                exact tokStart_slash_slash _
          · exact hP_region QF (by
              intro j
              have : path ++ X = r2 := hX.symm
              rw [this, hr2]
              exact noTokR1 j)
        · rw [if_neg hcond, List.nil_append]
          exact hP_region QF (by
            intro j
            have : path ++ X = r2 := hX.symm
            rw [this, hr2]
            exact noTokR1 j)
      · -- the remainder began with //: netloc and path both live inside r1
        by_cases hcond : nl ≠ [] ∨ (sch ≠ [] ∧ String.mk sch ∈ usesNetloc ∧
          (P ++ repl n).take 2 ≠ ['/', '/'])
        · rw [if_pos hcond]
          have hsrc : ∀ j, tokStart (((('/' :: '/' :: nl) ++ P) ++
              (List.replicate k '/' ++ X)).drop j) = false := by
            intro j
            have heq : (('/' :: '/' :: nl) ++ P) ++ (List.replicate k '/' ++ X) = r1 := by
              rw [List.append_assoc, ← List.append_assoc P, ← hk, ← hX, hr1]
              simp [List.append_assoc]
            rw [heq]
            exact noTokR1 j
          exact noTok_via_source (('/' :: '/' :: nl) ++ P) (List.replicate k '/' ++ X)
            n QF hsrc
        · -- // present in the source but suppressed in the rebuild: only P remains
          rw [if_neg hcond, List.nil_append]
          have hnl0 : nl = [] := by
            by_contra hne
            exact hcond (Or.inl hne)
          refine hP_region QF ?_
          intro j
          have hr2suffix : ∀ i, tokStart (r2.drop i) = false := by
            apply noTokAll_of_suffix r1 ['/', '/'] r2 _ noTokR1
            rw [hr1, hnl0]
            rfl
          have : path ++ X = r2 := hX.symm
          rw [this]
          exact hr2suffix j
  have hfind := findTok_append_left _ _ _ _ hb hA
  rw [hbuild, hshape]
  unfold extractPageNumL
  rw [hfind]
  exact natOfDigs_natDigs n

/-! ## Claim C8 -/

/-- C8 (counterexample): the claimed round trip
`extract_page_num (build_next_from_current u n) = n` fails as stated at the
concrete input `u = "http:page/5"`, `n = 3`: `urlsplit` parses the scheme
`http` with an empty netloc and the relative path `page/5`, and `urlunsplit`
(netloc-using scheme) re-prefixes `///`, so the rebuilt URL
`http:///page/5/page/3` carries an earlier page token and the extracted
number is 5, not 3. -/
theorem page_num_roundtrip_counterexample :
    extract_page_num (build_next_from_current (String.mk ['h', 't', 't', 'p', ':', 'p',
      'a', 'g', 'e', '/', '5']) 3) = 5 ∧ (5 : Nat) ≠ 3 := by
  constructor
  · decide
  · decide

/-- C8 (amended): for every `n ≥ 1` and every URL string `u` that either
contains the page-number token, or whose parsed path component is empty or
begins with a slash, extracting the page number from the rewritten URL gives
back exactly `n`; and `extract_page_num` returns 1 for any URL in which the
token does not occur.  (For a token-free URL with a netloc-using scheme and
a nonempty relative path — such as `http:page/5` — the modern `urlunsplit`
reassembly inserts `///` and can surface an earlier page token, so those
URLs are excluded.) -/
theorem page_num_roundtrip (u : String) (n : Nat) (h1 : 1 ≤ n)
    (h2 : findTok u.toList ≠ none ∨ (urlsplitL u.toList).path = [] ∨
      (urlsplitL u.toList).path.take 1 = ['/']) :
    extract_page_num (build_next_from_current u n) = n ∧
    (findTok u.toList = none → extract_page_num u = 1) := by
  constructor
  · show extractPageNumL (String.mk (buildNextL u.toList n)).toList = n
    have hlist : (String.mk (buildNextL u.toList n)).toList = buildNextL u.toList n := rfl
    rw [hlist]
    rcases hf : findTok u.toList with _ | ⟨⟨pre, ds, rest⟩⟩
    · have hp : (urlsplitL u.toList).path = [] ∨ (urlsplitL u.toList).path.take 1 = ['/'] := by
        rcases h2 with ha | hb
        · exact absurd hf ha
        · exact hb
      exact extract_buildNext_notok u.toList n hf hp
    · have heq : buildNextL u.toList n = subAll n u.toList := by
        unfold buildNextL; rw [hf]
      rw [heq]
      exact extract_subAll n u.toList (by rw [hf]; rfl)
  · intro hf
    show extractPageNumL u.toList = 1
    unfold extractPageNumL
    rw [hf]

/-- C8 (witness): the amended round trip at the concrete token-free URL
`https://www.transfermarkt.com/transfers/x` with `n = 7`. -/
theorem page_num_roundtrip_witness :
    extract_page_num (build_next_from_current
      "https://www.transfermarkt.com/transfers/x" 7) = 7 :=
  (page_num_roundtrip "https://www.transfermarkt.com/transfers/x" 7 (by decide)
    (Or.inr (Or.inr (by decide)))).1

/-! ## Claim C3 -/

theorem fetchGo_all_fail (outcome : Nat → Option Nat) (hfail : ∀ i, outcome i = none) :
    ∀ (remaining attempt : Nat) (sleeps : List Nat),
      fetchGo outcome remaining attempt sleeps =
        ⟨none, sleeps ++ (List.range' attempt (remaining - 1)).map (2 ^ ·),
          attempt + remaining⟩ := by
  intro remaining
  induction remaining with
  | zero => intro attempt sleeps; simp [fetchGo]
  | succ r ih =>
    intro attempt sleeps
    unfold fetchGo
    rw [hfail attempt]
    by_cases hr : r = 0
    · subst hr
      simp
    · rw [if_neg hr, ih (attempt + 1) (sleeps ++ [2 ^ attempt])]
      have hr1 : r - 1 + 1 = r := by omega
      have hs : sleeps ++ [2 ^ attempt] ++ (List.range' (attempt + 1) (r - 1)).map (2 ^ ·)
          = sleeps ++ (List.range' attempt (r + 1 - 1)).map (2 ^ ·) := by
        rw [List.append_assoc]
        have h2 : r + 1 - 1 = (r - 1) + 1 := by omega
        rw [h2]
        have h3 : List.range' attempt ((r - 1) + 1) = attempt :: List.range' (attempt + 1) (r - 1) :=
          rfl
        rw [h3]
        simp
      rw [hs]
      have h4 : attempt + 1 + r = attempt + (r + 1) := by omega
      rw [h4]

/-- C3: when every attempt for a URL fails, `fetch_url` makes exactly
`retries` attempts (default 3), sleeps `2 ** attempt` time units between
consecutive attempts — a monotonically non-decreasing exponential backoff
`1, 2, 4, ...` — returns the failure value `None` instead of raising, and
performs no sleep after the final attempt (`retries - 1` sleeps in total). -/
theorem fetch_url_all_attempts_fail (outcome : Nat → Option Nat) (retries : Nat)
    (hfail : ∀ i, outcome i = none) :
    (fetch_url outcome retries).result = none ∧
    (fetch_url outcome retries).attemptsMade = retries ∧
    (fetch_url outcome retries).sleeps = (List.range (retries - 1)).map (2 ^ ·) ∧
    List.Chain' (· ≤ ·) (fetch_url outcome retries).sleeps ∧
    (fetch_url outcome retries).sleeps.length = retries - 1 := by
  have h := fetchGo_all_fail outcome hfail retries 0 []
  have hrange : List.range (retries - 1) = List.range' 0 (retries - 1) :=
    List.range_eq_range' _
  have hfu : fetch_url outcome retries =
      ⟨none, (List.range' 0 (retries - 1)).map (2 ^ ·), retries⟩ := by
    unfold fetch_url
    rw [h]
    simp
  rw [hfu, hrange]
  refine ⟨rfl, rfl, rfl, ?_, by simp⟩
  apply List.Pairwise.chain'
  rw [List.pairwise_map, ← hrange]
  exact (List.pairwise_lt_range _).imp
    (fun hab => Nat.pow_le_pow_right (by omega) (le_of_lt hab))

/-- C3 (witness): with the default `retries = 3` and an always-failing
outcome, the trace is `None` after exactly 3 attempts with sleeps `[1, 2]`. -/
theorem fetch_url_all_attempts_fail_witness :
    (fetch_url (fun _ => none) 3).result = none ∧
    (fetch_url (fun _ => none) 3).attemptsMade = 3 ∧
    (fetch_url (fun _ => none) 3).sleeps = (List.range (3 - 1)).map (2 ^ ·) ∧
    List.Chain' (· ≤ ·) (fetch_url (fun _ => none) 3).sleeps ∧
    (fetch_url (fun _ => none) 3).sleeps.length = 3 - 1 :=
  fetch_url_all_attempts_fail (fun _ => none) 3 (fun _ => rfl)

/-! ## Claim C6 -/

/-- C6: when a fetched page parses to an empty list of transfer rows, the
walk for that index stops at once — the result records only the fetch just
made and no recursion happens — regardless of what pagination links the
page carries (the `page` argument is arbitrary apart from `rows = []`). -/
theorem walk_empty_rows_stops (site : String → Option Page) (dateText cur : String)
    (fuel : Nat) (visited : List String) (rows : List (List String))
    (fetched : List String) (page : Page)
    (hguard : ¬(cur = "" ∨ cur ∈ visited)) (hsite : site cur = some page)
    (hrows : page.rows = []) :
    walk site dateText (fuel + 1) (some cur) visited rows fetched =
      ⟨rows, cur :: visited, fetched ++ [cur], true⟩ := by
  unfold walk
  rw [if_neg hguard, hsite]
  simp [hrows]

/-- C6 (witness): a page with zero rows but a full set of pagination links
still stops the walk after one fetch. -/
theorem walk_empty_rows_stops_witness :
    walk (fun _ => some ⟨[], some "/t/page/9", some "/t/page/9", ["/t/page/2"]⟩)
      "01.01.2024" 5 (some "https://www.transfermarkt.com/t/d") [] [] [] =
      ⟨[], ["https://www.transfermarkt.com/t/d"],
        ["https://www.transfermarkt.com/t/d"], true⟩ :=
  walk_empty_rows_stops _ "01.01.2024" "https://www.transfermarkt.com/t/d" 4 [] [] []
    ⟨[], some "/t/page/9", some "/t/page/9", ["/t/page/2"]⟩ (by decide) rfl rfl

/-! ## Claim C9 -/

/-- C9: a fetch failure is local to one index.  First, the rows produced by
the crawl over a concatenation of target lists are exactly the rows of the
first part followed by the rows of the second — so whatever happens inside
one index's walk (including a fetch failure), every other index is still
walked and its rows are kept in order.  Second, when the fetch of the
current page fails (`site cur = none`), the walk for that index ends at
once, keeping the rows accumulated so far. -/
theorem crawl_failure_is_local (site : String → Option Page) (fuel : Nat) :
    (∀ targets more : List (String × String),
      crawlRows site fuel (targets ++ more) =
        crawlRows site fuel targets ++ crawlRows site fuel more) ∧
    (∀ (dateText cur : String) (visited : List String) (rows : List (List String))
      (fetched : List String), ¬(cur = "" ∨ cur ∈ visited) → site cur = none →
      walk site dateText (fuel + 1) (some cur) visited rows fetched =
        ⟨rows, cur :: visited, fetched ++ [cur], true⟩) := by
  constructor
  · intro targets more
    induction targets with
    | nil => simp [crawlRows]
    | cons t rest ih =>
      rcases t with ⟨dt, u⟩
      simp only [List.cons_append, crawlRows, List.append_eq, ih, List.append_assoc]
  · intro dateText cur visited rows fetched hguard hsite
    unfold walk
    rw [if_neg hguard, hsite]

/-- C9 (witness): with a site whose every fetch fails, the two-target crawl
still decomposes index by index, and a single walk stops right after its
failing fetch while keeping its earlier rows. -/
theorem crawl_failure_is_local_witness :
    crawlRows (fun _ => none) 3 ([("01.01.2024", "https://a")] ++ [("02.01.2024", "https://b")]) =
      crawlRows (fun _ => none) 3 [("01.01.2024", "https://a")] ++
        crawlRows (fun _ => none) 3 [("02.01.2024", "https://b")] ∧
    walk (fun _ => none) "01.01.2024" 4 (some "https://a") [] [["01.01.2024", "x"]] [] =
      ⟨[["01.01.2024", "x"]], ["https://a"], ["https://a"], true⟩ :=
  ⟨(crawl_failure_is_local (fun _ => none) 3).1 [("01.01.2024", "https://a")]
      [("02.01.2024", "https://b")],
    (crawl_failure_is_local (fun _ => none) 3).2 "01.01.2024" "https://a" []
      [["01.01.2024", "x"]] [] (by decide) rfl⟩

/-! ## Claim C2 -/

/-- A row with all fifteen source columns present (plain-text cells). -/
def fullRow : List Cell :=
  [⟨"c01", none⟩, ⟨"c02", none⟩, ⟨"c03", none⟩, ⟨"c04", none⟩, ⟨"c05", none⟩,
   ⟨"c06", none⟩, ⟨"c07", none⟩, ⟨"c08", none⟩, ⟨"c09", none⟩, ⟨"c10", none⟩,
   ⟨"c11", none⟩, ⟨"c12", none⟩, ⟨"c13", none⟩, ⟨"c14", none⟩, ⟨"c15", none⟩]

/-- C2 (counterexample): on a complete 15-column row, extraction returns 5
values — not 6 — and they come from 1-based positions 1, 5, 8, 12, 14, not
from 1, 2, 6, 9, 13, 15: `enumerate(cols, start=1)` numbers cells from 1,
so the keep list `[0, 1, 5, 8, 12, 14]` matches 1-based positions (its `0`
never matches anything). -/
theorem extractRow_projection_counterexample :
    extractRow fullRow = ["c01", "c05", "c08", "c12", "c14"] ∧
    (extractRow fullRow).length ≠ 6 ∧
    extractRow fullRow ≠ ["c01", "c02", "c06", "c09", "c13", "c15"] := by
  refine ⟨by decide, by decide, by decide⟩

theorem extractCells_ge_15 : ∀ (rest : List Cell) (s : Nat), 15 ≤ s →
    extractCells s rest = [] := by
  intro rest
  induction rest with
  | nil => intro s _; rfl
  | cons c t ih =>
    intro s hs
    unfold extractCells
    rw [if_neg (by simp [keep_indices]; omega)]
    exact ih (s + 1) (by omega)

/-- C2 (amended): on a row carrying at least the 14 source columns the code
can reach, extraction returns exactly the 5 rendered cells at 1-based
positions 1, 5, 8, 12 and 14, in order; and every retained cell holding a
link with a truthy href is rendered as a `=HYPERLINK(url, text)` pair whose
URL is the href prefixed by the site origin
`https://www.transfermarkt.com`. -/
theorem extractRow_projection (a1 a2 a3 a4 a5 a6 a7 a8 a9 a10 a11 a12 a13 a14 : Cell)
    (rest : List Cell) :
    extractRow (a1 :: a2 :: a3 :: a4 :: a5 :: a6 :: a7 :: a8 :: a9 :: a10 :: a11 :: a12 ::
      a13 :: a14 :: rest) =
      [renderCell a1, renderCell a5, renderCell a8, renderCell a12, renderCell a14] ∧
    (∀ (c : Cell) (a : ATag) (h : String), c.a = some a → a.href = some h → h ≠ "" →
      renderCell c = "=HYPERLINK(" ++ "\"" ++ ("https://www.transfermarkt.com" ++ h) ++
        "\"" ++ ", " ++ "\"" ++ a.text ++ "\"" ++ ")") := by
  constructor
  · show extractCells 1 _ = _
    simp only [extractCells, keep_indices]
    norm_num
    exact extractCells_ge_15 rest 15 (by omega)
  · intro c a h h1 h2 h3
    simp [renderCell, h1, h2, h3]

/-- C2 (witness): the amended projection at a concrete complete row, and
the hyperlink rendering at a concrete link cell. -/
theorem extractRow_projection_witness :
    extractRow fullRow = [renderCell ⟨"c01", none⟩, renderCell ⟨"c05", none⟩,
      renderCell ⟨"c08", none⟩, renderCell ⟨"c12", none⟩, renderCell ⟨"c14", none⟩] ∧
    renderCell ⟨"x", some ⟨some "/p/1", "Player"⟩⟩ =
      "=HYPERLINK(" ++ "\"" ++ ("https://www.transfermarkt.com" ++ "/p/1") ++ "\"" ++
        ", " ++ "\"" ++ "Player" ++ "\"" ++ ")" := by
  have h := extractRow_projection ⟨"c01", none⟩ ⟨"c02", none⟩ ⟨"c03", none⟩ ⟨"c04", none⟩
    ⟨"c05", none⟩ ⟨"c06", none⟩ ⟨"c07", none⟩ ⟨"c08", none⟩ ⟨"c09", none⟩ ⟨"c10", none⟩
    ⟨"c11", none⟩ ⟨"c12", none⟩ ⟨"c13", none⟩ ⟨"c14", none⟩ [⟨"c15", none⟩]
  exact ⟨h.1, h.2 ⟨"x", some ⟨some "/p/1", "Player"⟩⟩ ⟨some "/p/1", "Player"⟩ "/p/1"
    rfl rfl (by decide)⟩

/-! ## Claim C10 -/

theorem extractCells_length_eq : ∀ (cells : List Cell) (s : Nat),
    (extractCells s cells).length =
      ((List.range' s cells.length).filter (fun k => k ∈ keep_indices)).length := by
  intro cells
  induction cells with
  | nil => intro s; rfl
  | cons c t ih =>
    intro s
    unfold extractCells
    have hr : List.range' s (t.length + 1) = s :: List.range' (s + 1) t.length := rfl
    by_cases hs : s ∈ keep_indices
    · simp [hs, hr, ih (s + 1)]
    · simp [hs, hr, ih (s + 1)]

/-- C10: a row in which at least one but fewer than all projected cells are
present (1 ≤ cells < 14) is still emitted — prefixed with the date label —
and its length is strictly below the full output width of 6; a row is
dropped exactly when its retained-cell list is empty, so emitted rows have
no fixed width guarantee. -/
theorem emitRow_partial_rows (dateText : String) (cells : List Cell)
    (h1 : 1 ≤ cells.length) (h2 : cells.length < 14) :
    (∀ cs : List Cell, emitRow dateText cs = none ↔ extractRow cs = []) ∧
    emitRow dateText cells = some (dateText :: extractRow cells) ∧
    extractRow cells ≠ [] ∧
    (dateText :: extractRow cells).length < 6 := by
  have hne : extractRow cells ≠ [] := by
    rcases cells with _ | ⟨c, t⟩
    · simp at h1
    · show extractCells 1 (c :: t) ≠ []
      unfold extractCells
      rw [if_pos (by decide : (1 : Nat) ∈ keep_indices)]
      simp
  refine ⟨?_, ?_, hne, ?_⟩
  · intro cs
    unfold emitRow
    rcases h : extractRow cs with _ | ⟨d, t⟩ <;> simp [h]
  · unfold emitRow
    rcases h : extractRow cells with _ | ⟨d, t⟩
    · exact absurd h hne
    · simp
  · have hlen := extractCells_length_eq cells 1
    simp only [List.length_cons]
    have hb : (extractRow cells).length ≤ 4 := by
      show (extractCells 1 cells).length ≤ 4
      rw [hlen]
      generalize hm : cells.length = m at h1 h2
      interval_cases m <;> decide
    omega

/-- C10 (witness): a one-cell row is emitted with width 2 < 6. -/
theorem emitRow_partial_rows_witness :
    emitRow "01.01.2024" [⟨"x", none⟩] = some ("01.01.2024" :: extractRow [⟨"x", none⟩]) ∧
    (("01.01.2024" : String) :: extractRow [⟨"x", none⟩]).length < 6 :=
  ⟨(emitRow_partial_rows "01.01.2024" [⟨"x", none⟩] (by decide) (by decide)).2.1,
    (emitRow_partial_rows "01.01.2024" [⟨"x", none⟩] (by decide) (by decide)).2.2.2⟩

/-! ## Claim C4 -/

/-- C4 (counterexample): the date parsing of `run_script` is a single
`strptime('%m/%d/%Y')`, so a date string in ISO year-month-day form is
rejected, contradicting the claim that an ordered list of several formats
including ISO is tried. -/
theorem parse_dates_iso_rejected :
    parseMDY "2024-01-15" = none ∧
    parseDates "2024-01-15" "2024-01-16" =
      .error "Invalid date format in H1 or I1. Use MM/DD/YYYY." := by
  refine ⟨by decide, ?_⟩
  rfl

theorem parseMonth_rest (l : List Char) (m : Nat) (r : List Char)
    (h : parseMonth l = some (m, r)) : ∀ c ∈ r, c ∈ l := by
  rcases l with _ | ⟨c0, _ | ⟨c1, t⟩⟩
  · simp [parseMonth] at h
  · simp only [parseMonth] at h
    by_cases hc : '1' ≤ c0 ∧ c0 ≤ '9'
    · rw [if_pos hc] at h
      simp only [Option.some.injEq, Prod.mk.injEq] at h
      rw [← h.2]
      intro c hc'
      simp at hc'
    · rw [if_neg hc] at h
      simp at h
  · simp only [parseMonth] at h
    by_cases hA : c0 = '1' ∧ ('0' ≤ c1 ∧ c1 ≤ '2')
    · rw [if_pos hA] at h
      simp only [Option.some.injEq, Prod.mk.injEq] at h
      rw [← h.2]
      intro c hc'
      simp [hc']
    · rw [if_neg hA] at h
      by_cases hB : c0 = '0' ∧ ('1' ≤ c1 ∧ c1 ≤ '9')
      · rw [if_pos hB] at h
        simp only [Option.some.injEq, Prod.mk.injEq] at h
        rw [← h.2]
        intro c hc'
        simp [hc']
      · rw [if_neg hB] at h
        by_cases hC : '1' ≤ c0 ∧ c0 ≤ '9'
        · rw [if_pos hC] at h
          simp only [Option.some.injEq, Prod.mk.injEq] at h
          rw [← h.2]
          intro c hc'
          simp at hc'
          rcases hc' with h' | h' <;> simp [h']
        · rw [if_neg hC] at h
          simp at h

/-- C4 (amended): `run_script` parses the two sheet dates against the
single format `%m/%d/%Y` (month/day/year), not an ordered list of formats:
any string without a slash — in particular the ISO year-month-day form — is
rejected, valid month/day/year strings (zero-padded or not) are accepted, a
day/month/year string like `15/01/2024` is rejected, and a failed parse of
either cell produces the invalid-format error while two successful parses
yield the (swapped-if-reversed) date pair. -/
theorem parse_dates_single_format :
    (∀ s : String, ('/' ∉ s.toList) → parseMDY s = none) ∧
    parseMDY "01/15/2024" = some (1, 15, 2024) ∧
    parseMDY "1/5/2024" = some (1, 5, 2024) ∧
    parseMDY "15/01/2024" = none ∧
    parseDates "02/20/2024" "01/15/2024" = .ok ((1, 15, 2024), (2, 20, 2024)) := by
  refine ⟨?_, by decide, by decide, by decide, by rfl⟩
  intro s hs
  show parseMDYL s.toList = none
  unfold parseMDYL
  rcases hm : parseMonth s.toList with _ | ⟨m, r1⟩
  · rfl
  · rcases hr1 : r1 with _ | ⟨c1, r2⟩
    · rfl
    · have hmem : c1 ∈ s.toList := by
        apply parseMonth_rest s.toList m r1 hm
        rw [hr1]
        exact List.mem_cons_self c1 r2
      have hc1 : ¬c1 = '/' := by
        intro hc
        rw [hc] at hmem
        exact hs hmem
      simp [hc1]

/-- C4 (witness): the no-slash rejection applied at the concrete slash-free
string `20240115`. -/
theorem parse_dates_single_format_witness : parseMDY "20240115" = none :=
  parse_dates_single_format.1 "20240115" (by decide)

/-! ## Claim C5 -/

/-- A page whose `rel="next"` link points back to page 1 while the numeric
pagination links offer a fresh page 3 (cyclic markup). -/
def pageC5 : Page := ⟨[[⟨"row", none⟩]], some "/t/page/1", none, ["/t/page/3"]⟩

def urlC5p1 : String := "https://www.transfermarkt.com/t/page/1"

def urlC5p2 : String := "https://www.transfermarkt.com/t/page/2"

def urlC5p3 : String := "https://www.transfermarkt.com/t/page/3"

def visitedC5 : List String := [urlC5p2, urlC5p1]

def siteC5 : String → Option Page := fun u => if u = urlC5p2 then some pageC5 else none

/-- C5 (counterexample): on `pageC5` at page 2 with pages 1 and 2 visited,
strategy 1 (`rel="next"`) wins with the already-visited page-1 URL even
though strategy 3 would offer the unvisited page-3 URL; the rejected
candidate is not treated as absent — the final guard sets the current URL
to `None` and the walk fetches nothing further (the page-3 URL is never
fetched), so rejection does terminate the walk. -/
theorem resolver_no_fallthrough_counterexample :
    resolveNext pageC5 urlC5p2 = some urlC5p1 ∧
    numericCandidate pageC5 urlC5p2 = some urlC5p3 ∧
    urlC5p3 ∉ visitedC5 ∧
    selectNext visitedC5 (resolveNext pageC5 urlC5p2) = none ∧
    (walk siteC5 "31.01.2024" 5 (some urlC5p2) [urlC5p1] [] []).fetched = [urlC5p2] := by
  refine ⟨by decide, by decide, by decide, by decide, by decide⟩

/-- C5 (amended): the strategy chain is first-match-wins on candidate
production and never consults `visited`: an earlier strategy's candidate is
kept even when visited (in particular a produced `rel="next"` candidate is
the chain's result outright).  The visited/emptiness check runs once, after
the chain: a produced candidate that is already in `visited` makes the
selection `none`, which terminates that index's walk — later strategies are
not retried. -/
theorem resolver_rejects_after_chain (page : Page) (cur : String) (visited : List String)
    (nu : String) (hres : resolveNext page cur = some nu) (hvis : nu ∈ visited) :
    selectNext visited (resolveNext page cur) = none ∧
    (∀ m, relNextCandidate page = some m → resolveNext page cur = some m) := by
  constructor
  · rw [hres]
    unfold selectNext
    simp [hvis]
  · intro m hm
    unfold resolveNext
    rw [hm]

/-- C5 (witness): the amended rejection behaviour at the concrete cyclic
page. -/
theorem resolver_rejects_after_chain_witness :
    selectNext visitedC5 (resolveNext pageC5 urlC5p2) = none ∧
    (∀ m, relNextCandidate pageC5 = some m → resolveNext pageC5 urlC5p2 = some m) :=
  resolver_rejects_after_chain pageC5 urlC5p2 visitedC5 urlC5p1 (by decide) (by decide)

/-! ## Claim C7 -/

/-- C7: when strategies 1-3 produce no candidate (no `rel="next"` link, no
right-arrow link, no usable numeric pagination link), the resolver
synthesizes the next URL by rewriting the current URL's page number to
`current + 1` exactly when the page's row count reaches the full-page
threshold `PAGE_SIZE_HINT = 25`; below the threshold it produces no next
URL. -/
theorem resolveNext_full_page_heuristic (page : Page) (cur : String)
    (h1 : relNextCandidate page = none) (h2 : rightCandidate page = none)
    (h3 : numericCandidate page cur = none) :
    (PAGE_SIZE_HINT ≤ page.rows.length →
      resolveNext page cur = some (build_next_from_current cur (extract_page_num cur + 1))) ∧
    (page.rows.length < PAGE_SIZE_HINT → resolveNext page cur = none) := by
  unfold resolveNext
  rw [h1, h2, h3]
  unfold fullPageCandidate
  constructor
  · intro h
    rw [if_pos h]
  · intro h
    rw [if_neg (by omega)]

/-- A full page: 25 rows and no pagination markup at all. -/
def pageC7 : Page := ⟨List.replicate 25 [⟨"row", none⟩], none, none, []⟩

def urlC7 : String := "https://www.transfermarkt.com/t/d"

/-- C7 (witness): the heuristic at a concrete 25-row page without
pagination markup synthesizes the page-2 URL. -/
theorem resolveNext_full_page_heuristic_witness :
    resolveNext pageC7 urlC7 = some "https://www.transfermarkt.com/t/d/page/2" := by
  have h := (resolveNext_full_page_heuristic pageC7 urlC7 rfl rfl (by decide)).1 (by decide)
  rw [h]
  decide

/-! ## Claim C1 -/

/-- Inversion of the final loop guard: a selected next URL is the chain's
candidate, is truthy, and is not yet visited. -/
lemma selectNext_eq_some (visited : List String) (o : Option String) (nu : String)
    (h : selectNext visited o = some nu) : o = some nu ∧ nu ≠ "" ∧ nu ∉ visited := by
  cases o with
  | none => exact absurd h (by simp [selectNext])
  | some m =>
    have h' : (if m ≠ "" ∧ m ∉ visited then some m else none) = some nu := h
    by_cases hc : m ≠ "" ∧ m ∉ visited
    · rw [if_pos hc] at h'
      rw [Option.some.injEq] at h'
      subst h'
      exact ⟨rfl, hc.1, hc.2⟩
    · rw [if_neg hc] at h'
      exact absurd h' (by simp)

/-- Constructor-shape case split for an `Option` without touching the
goal. -/
lemma option_eq_cases {α : Type} (o : Option α) : o = none ∨ ∃ x, o = some x := by
  cases o
  · exact Or.inl rfl
  · exact Or.inr ⟨_, rfl⟩

/-- Walk step equation: a truthy-empty or already-visited current URL stops
the loop with the state unchanged. -/
lemma walk_step_stop (site : String → Option Page) (dateText : String) (fuel : Nat)
    (cur : String) (visited : List String) (rows : List (List String))
    (fetched : List String) (hg : cur = "" ∨ cur ∈ visited) :
    walk site dateText (fuel + 1) (some cur) visited rows fetched =
      ⟨rows, visited, fetched, true⟩ := by
  unfold walk
  rw [if_pos hg]

/-- Walk step equation: a failed fetch records the fetch and stops. -/
lemma walk_step_fetch_fail (site : String → Option Page) (dateText : String) (fuel : Nat)
    (cur : String) (visited : List String) (rows : List (List String))
    (fetched : List String) (hg : ¬(cur = "" ∨ cur ∈ visited)) (hside : site cur = none) :
    walk site dateText (fuel + 1) (some cur) visited rows fetched =
      ⟨rows, cur :: visited, fetched ++ [cur], true⟩ := by
  unfold walk
  rw [if_neg hg, hside]

/-- Walk step equation: a fetched page with no rows records the fetch and
stops. -/
lemma walk_step_empty (site : String → Option Page) (dateText : String) (fuel : Nat)
    (cur : String) (visited : List String) (rows : List (List String))
    (fetched : List String) (page : Page) (hg : ¬(cur = "" ∨ cur ∈ visited))
    (hside : site cur = some page) (hpr : page.rows = []) :
    walk site dateText (fuel + 1) (some cur) visited rows fetched =
      ⟨rows, cur :: visited, fetched ++ [cur], true⟩ := by
  unfold walk
  rw [if_neg hg, hside]
  simp [hpr]

/-- Walk step equation: a fetched page with rows emits them and recurses on
the guarded candidate of the strategy chain. -/
lemma walk_step_go (site : String → Option Page) (dateText : String) (fuel : Nat)
    (cur : String) (visited : List String) (rows : List (List String))
    (fetched : List String) (page : Page) (hg : ¬(cur = "" ∨ cur ∈ visited))
    (hside : site cur = some page) (hpr : page.rows ≠ []) :
    walk site dateText (fuel + 1) (some cur) visited rows fetched =
      walk site dateText fuel (selectNext (cur :: visited) (resolveNext page cur))
        (cur :: visited) (rows ++ page.rows.filterMap (emitRow dateText))
        (fetched ++ [cur]) := by
  conv_lhs => unfold walk
  rw [if_neg hg, hside]
  simp [hpr]

/-- A walk state whose `visited` list is duplicate-free, contained in `U`,
and the reverse of `fetched` has a duplicate-free `fetched` of length at
most `U.card`. -/
lemma exit_state_ok (U : Finset String) (visited fetched : List String)
    (hnd : visited.Nodup) (hsub : ∀ v ∈ visited, v ∈ U)
    (hrev : visited = fetched.reverse) :
    fetched.Nodup ∧ fetched.length ≤ U.card := by
  have hfnd : fetched.Nodup := by
    rw [← List.nodup_reverse, ← hrev]
    exact hnd
  refine ⟨hfnd, ?_⟩
  have h1 : fetched.length = visited.length := by rw [hrev, List.length_reverse]
  have h2 : visited.toFinset.card = visited.length := List.toFinset_card_of_nodup hnd
  have h3 : visited.toFinset ⊆ U := fun v hv => hsub v (List.mem_toFinset.mp hv)
  have h4 := Finset.card_le_card h3
  omega

/-- Loop invariant of the per-index walk: from any state whose `visited`
list is duplicate-free, inside `U`, and the reverse of `fetched`, whose
current URL (if any) is unvisited and in `U`, and whose remaining step
budget covers the URLs of `U` not yet visited, the walk exits by its own
guard with a duplicate-free fetch list of length at most `U.card`. -/
lemma walk_inv (site : String → Option Page) (dateText : String) (U : Finset String)
    (hclosed : ∀ u p nu, site u = some p → resolveNext p u = some nu → nu ∈ U) :
    ∀ (fuel : Nat) (cur : Option String) (visited fetched : List String)
      (rows : List (List String)),
      visited.Nodup → (∀ v ∈ visited, v ∈ U) → visited = fetched.reverse →
      (∀ c, cur = some c → c ∉ visited ∧ c ∈ U) →
      U.card ≤ fuel + visited.length →
      (walk site dateText fuel cur visited rows fetched).finished = true ∧
      (walk site dateText fuel cur visited rows fetched).fetched.Nodup ∧
      (walk site dateText fuel cur visited rows fetched).fetched.length ≤ U.card := by
  intro fuel
  induction fuel with
  | zero =>
    intro cur visited fetched rows hnd hsub hrev hcur hfuel
    cases cur with
    | none =>
      unfold walk
      exact ⟨rfl, (exit_state_ok U visited fetched hnd hsub hrev).1,
        (exit_state_ok U visited fetched hnd hsub hrev).2⟩
    | some c =>
      exfalso
      obtain ⟨hcv, hcU⟩ := hcur c rfl
      have h2 : visited.toFinset.card = visited.length := List.toFinset_card_of_nodup hnd
      have h3 : visited.toFinset ⊆ U := fun v hv => hsub v (List.mem_toFinset.mp hv)
      have heq : visited.toFinset = U := Finset.eq_of_subset_of_card_le h3 (by omega)
      rw [← heq] at hcU
      exact hcv (List.mem_toFinset.mp hcU)
  | succ fuel ih =>
    intro cur visited fetched rows hnd hsub hrev hcur hfuel
    cases cur with
    | none =>
      unfold walk
      exact ⟨rfl, (exit_state_ok U visited fetched hnd hsub hrev).1,
        (exit_state_ok U visited fetched hnd hsub hrev).2⟩
    | some c =>
      obtain ⟨hcv, hcU⟩ := hcur c rfl
      have hnd' : (c :: visited).Nodup := List.nodup_cons.mpr ⟨hcv, hnd⟩
      have hsub' : ∀ v ∈ c :: visited, v ∈ U := by
        intro v hv
        rcases List.mem_cons.mp hv with h | h
        · rw [h]; exact hcU
        · exact hsub v h
      have hrev' : c :: visited = (fetched ++ [c]).reverse := by
        simp [List.reverse_append, hrev]
      by_cases hg : c = "" ∨ c ∈ visited
      · rw [walk_step_stop site dateText fuel c visited rows fetched hg]
        exact ⟨rfl, (exit_state_ok U visited fetched hnd hsub hrev).1,
          (exit_state_ok U visited fetched hnd hsub hrev).2⟩
      rcases option_eq_cases (site c) with hside | ⟨page, hside⟩
      · rw [walk_step_fetch_fail site dateText fuel c visited rows fetched hg hside]
        exact ⟨rfl, (exit_state_ok U (c :: visited) (fetched ++ [c]) hnd' hsub' hrev').1,
          (exit_state_ok U (c :: visited) (fetched ++ [c]) hnd' hsub' hrev').2⟩
      · by_cases hpr : page.rows = []
        · rw [walk_step_empty site dateText fuel c visited rows fetched page hg hside hpr]
          exact ⟨rfl, (exit_state_ok U (c :: visited) (fetched ++ [c]) hnd' hsub' hrev').1,
            (exit_state_ok U (c :: visited) (fetched ++ [c]) hnd' hsub' hrev').2⟩
        · rw [walk_step_go site dateText fuel c visited rows fetched page hg hside hpr]
          apply ih
          · exact hnd'
          · exact hsub'
          · exact hrev'
          · intro c' h
            obtain ⟨hres, _, hnv⟩ := selectNext_eq_some _ _ _ h
            exact ⟨hnv, hclosed c page c' hside hres⟩
          · simp only [List.length_cons]
            omega

/-- C1: the final guard never selects an already-visited URL, and for any
finite set `U` of URLs closed under the strategy chain and containing the
start URL — cycles and duplicates among candidate links included — the walk
run with a step budget of `U.card` exits by its own loop guard (it never
exhausts the budget), fetches no URL twice, and makes at most `U.card`
fetches. -/
theorem walk_no_refetch_and_bounded (site : String → Option Page)
    (dateText u0 : String) (U : Finset String) (hu : u0 ∈ U)
    (hclosed : ∀ u p nu, site u = some p → resolveNext p u = some nu → nu ∈ U) :
    (∀ (vs : List String) (o : Option String) (nu : String),
      selectNext vs o = some nu → nu ∉ vs) ∧
    (walk site dateText U.card (some u0) [] [] []).finished = true ∧
    (walk site dateText U.card (some u0) [] [] []).fetched.Nodup ∧
    (walk site dateText U.card (some u0) [] [] []).fetched.length ≤ U.card := by
  refine ⟨fun vs o nu h => (selectNext_eq_some vs o nu h).2.2, ?_⟩
  apply walk_inv site dateText U hclosed U.card (some u0) [] [] []
  · exact List.nodup_nil
  · intro v hv
    exact absurd hv (by simp)
  · rfl
  · intro c h
    rw [Option.some.injEq] at h
    subst h
    exact ⟨by simp, hu⟩
  · simp

/-- Page 1 of a two-page cycle: its `rel="next"` link points to page 2. -/
def pageW1 : Page := ⟨[[⟨"r", none⟩]], some "/w/page/2", none, []⟩

/-- Page 2 of the cycle: its `rel="next"` link points back to page 1. -/
def pageW2 : Page := ⟨[[⟨"r", none⟩]], some "/w/page/1", none, []⟩

def urlW1 : String := "https://www.transfermarkt.com/w/page/1"

def urlW2 : String := "https://www.transfermarkt.com/w/page/2"

def siteW : String → Option Page := fun u =>
  if u = urlW1 then some pageW1 else if u = urlW2 then some pageW2 else none

/-- The two URLs reachable on the cyclic site. -/
def UW : Finset String := {urlW1, urlW2}

/-- C1 (witness): on the concrete two-page cyclic site the walk from page 1
finishes by its own guard within `UW.card = 2` fetches and refetches
nothing. -/
theorem walk_no_refetch_and_bounded_witness :
    (∀ (vs : List String) (o : Option String) (nu : String),
      selectNext vs o = some nu → nu ∉ vs) ∧
    (walk siteW "31.01.2024" UW.card (some urlW1) [] [] []).finished = true ∧
    (walk siteW "31.01.2024" UW.card (some urlW1) [] [] []).fetched.Nodup ∧
    (walk siteW "31.01.2024" UW.card (some urlW1) [] [] []).fetched.length ≤ UW.card := by
  apply walk_no_refetch_and_bounded siteW "31.01.2024" urlW1 UW
  · simp [UW]
  · intro u p nu hs hr
    unfold siteW at hs
    by_cases h1 : u = urlW1
    · rw [if_pos h1] at hs
      rw [Option.some.injEq] at hs
      subst hs
      have hres : resolveNext pageW1 u = some urlW2 := by
        unfold resolveNext
        rw [show relNextCandidate pageW1 = some urlW2 from by decide]
      rw [hres] at hr
      rw [Option.some.injEq] at hr
      subst hr
      simp [UW]
    · rw [if_neg h1] at hs
      by_cases h2 : u = urlW2
      · rw [if_pos h2] at hs
        rw [Option.some.injEq] at hs
        subst hs
        have hres : resolveNext pageW2 u = some urlW1 := by
          unfold resolveNext
          rw [show relNextCandidate pageW2 = some urlW1 from by decide]
        rw [hres] at hr
        rw [Option.some.injEq] at hr
        subst hr
        simp [UW]
      · rw [if_neg h2] at hs
        exact absurd hs (by simp)

end TransferScraper
